import Mathlib

/-!
Verification of the grapheme-cluster segmentation core of the uniseg
repository (grapheme.go), via a shallow embedding in Lean.

Modelling conventions:
* Go runes (code points) are `Nat`; Go strings and byte slices are `List Nat`
  of byte values; byte offsets stored in `Graphemes.indices` are `Int`
  (because `utf8.RuneLen` can return -1).
* The automaton states and the property classes are enumerated inductive
  types mirroring the `gr...` and `pr...` integer constants.
* The streaming state `int` (with the reserved sentinel -1) is modelled as
  `Option GrState`: `none` stands for any negative value (the code only
  tests `state < 0`), `some s` for the state `s`.
* Go named results returned by a bare `return` produce zero values; the zero
  value of the state int is 0, i.e. `some GrState.grAny` in this model.
-/

/-- States of the grapheme cluster parser (the `gr...` constants). -/
inductive GrState where
  | grAny
  | grCR
  | grControlLF
  | grL
  | grLVV
  | grLVTT
  | grPrepend
  | grExtendedPictographic
  | grExtendedPictographicZWJ
  | grRIOdd
  | grRIEven
deriving DecidableEq, Repr

/-- Property classes of code points (the `pr...` constants of the
classifier). -/
inductive Property where
  | prAny
  | prCR
  | prLF
  | prControl
  | prExtend
  | prZWJ
  | prRegionalIndicator
  | prPrepend
  | prSpacingMark
  | prL
  | prV
  | prT
  | prLV
  | prLVT
  | prExtendedPictographic
deriving DecidableEq, Repr

/-- Breaking instruction `grNoBoundary`. -/
def grNoBoundary : Nat := 0

/-- Breaking instruction `grBoundary`. -/
def grBoundary : Nat := 1

/-- The grapheme cluster parser's state transitions: maps (state, property)
to (new state, breaking instruction, rule number), mirroring the
`grTransitions` map literal of grapheme.go.  A missing key is `none`. -/
def grTransitions : GrState × Property → Option (GrState × Nat × Nat) := fun x =>
  match x with
  -- GB5
  | (.grAny, .prCR) => some (.grCR, grBoundary, 50)
  | (.grAny, .prLF) => some (.grControlLF, grBoundary, 50)
  | (.grAny, .prControl) => some (.grControlLF, grBoundary, 50)
  -- GB4
  | (.grCR, .prAny) => some (.grAny, grBoundary, 40)
  | (.grControlLF, .prAny) => some (.grAny, grBoundary, 40)
  -- GB3
  | (.grCR, .prLF) => some (.grAny, grNoBoundary, 30)
  -- GB6
  | (.grAny, .prL) => some (.grL, grBoundary, 9990)
  | (.grL, .prL) => some (.grL, grNoBoundary, 60)
  | (.grL, .prV) => some (.grLVV, grNoBoundary, 60)
  | (.grL, .prLV) => some (.grLVV, grNoBoundary, 60)
  | (.grL, .prLVT) => some (.grLVTT, grNoBoundary, 60)
  -- GB7
  | (.grAny, .prLV) => some (.grLVV, grBoundary, 9990)
  | (.grAny, .prV) => some (.grLVV, grBoundary, 9990)
  | (.grLVV, .prV) => some (.grLVV, grNoBoundary, 70)
  | (.grLVV, .prT) => some (.grLVTT, grNoBoundary, 70)
  -- GB8
  | (.grAny, .prLVT) => some (.grLVTT, grBoundary, 9990)
  | (.grAny, .prT) => some (.grLVTT, grBoundary, 9990)
  | (.grLVTT, .prT) => some (.grLVTT, grNoBoundary, 80)
  -- GB9
  | (.grAny, .prExtend) => some (.grAny, grNoBoundary, 90)
  | (.grAny, .prZWJ) => some (.grAny, grNoBoundary, 90)
  -- GB9a
  | (.grAny, .prSpacingMark) => some (.grAny, grNoBoundary, 91)
  -- GB9b
  | (.grAny, .prPrepend) => some (.grPrepend, grBoundary, 9990)
  | (.grPrepend, .prAny) => some (.grAny, grNoBoundary, 92)
  -- GB11
  | (.grAny, .prExtendedPictographic) => some (.grExtendedPictographic, grBoundary, 9990)
  | (.grExtendedPictographic, .prExtend) => some (.grExtendedPictographic, grNoBoundary, 110)
  | (.grExtendedPictographic, .prZWJ) => some (.grExtendedPictographicZWJ, grNoBoundary, 110)
  | (.grExtendedPictographicZWJ, .prExtendedPictographic) =>
      some (.grExtendedPictographic, grNoBoundary, 110)
  -- GB12 / GB13
  | (.grAny, .prRegionalIndicator) => some (.grRIOdd, grBoundary, 9990)
  | (.grRIOdd, .prRegionalIndicator) => some (.grRIEven, grNoBoundary, 120)
  | (.grRIEven, .prRegionalIndicator) => some (.grRIOdd, grBoundary, 120)
  | _ => none

/-- Modelled from the spec: the code-point-to-property classification table
(`property` and its data table in properties.go) is not part of src/; the
spec treats it as an external collaborator implementing the standard UAX #29
default classification plus the extended-pictographic extension, with any
unassigned scalar classified as Any (spec section 4.1).  This model assigns
the standard classes on the major Unicode ranges (controls, CR, LF, ZWJ,
combining marks and other extenders, prepended concatenation marks, spacing
marks, Hangul jamo and syllables, regional indicators, the main
extended-pictographic blocks) and defaults to Any everywhere else. -/
def property (r : Nat) : Property :=
  if r = 0xD then .prCR
  else if r = 0xA then .prLF
  else if r ≤ 0x1F then .prControl
  else if 0x7F ≤ r ∧ r ≤ 0x9F then .prControl
  else if r = 0xAD then .prControl
  else if 0x300 ≤ r ∧ r ≤ 0x36F then .prExtend
  else if 0x483 ≤ r ∧ r ≤ 0x489 then .prExtend
  else if 0x591 ≤ r ∧ r ≤ 0x5BD then .prExtend
  else if 0x600 ≤ r ∧ r ≤ 0x605 then .prPrepend
  else if r = 0x6DD ∨ r = 0x70F ∨ r = 0x8E2 ∨ r = 0xD4E then .prPrepend
  else if r = 0x903 ∨ r = 0x93B ∨ r = 0xE33 ∨ r = 0xEB3 then .prSpacingMark
  else if 0x1100 ≤ r ∧ r ≤ 0x115F then .prL
  else if 0x1160 ≤ r ∧ r ≤ 0x11A7 then .prV
  else if 0x11A8 ≤ r ∧ r ≤ 0x11FF then .prT
  else if 0x200B ≤ r ∧ r ≤ 0x200B then .prControl
  else if r = 0x200C then .prExtend
  else if r = 0x200D then .prZWJ
  else if 0x2028 ≤ r ∧ r ≤ 0x202E then .prControl
  else if 0x20D0 ≤ r ∧ r ≤ 0x20FF then .prExtend
  else if 0x2600 ≤ r ∧ r ≤ 0x27BF then .prExtendedPictographic
  else if 0xA960 ≤ r ∧ r ≤ 0xA97C then .prL
  else if 0xAC00 ≤ r ∧ r ≤ 0xD7A3 then
    (if (r - 0xAC00) % 28 = 0 then .prLV else .prLVT)
  else if 0xD7B0 ≤ r ∧ r ≤ 0xD7C6 then .prV
  else if 0xD7CB ≤ r ∧ r ≤ 0xD7FB then .prT
  else if 0xFE00 ≤ r ∧ r ≤ 0xFE0F then .prExtend
  else if 0x1F1E6 ≤ r ∧ r ≤ 0x1F1FF then .prRegionalIndicator
  else if 0x1F3FB ≤ r ∧ r ≤ 0x1F3FF then .prExtend
  else if 0x1F000 ≤ r ∧ r ≤ 0x1FAFF then .prExtendedPictographic
  else .prAny

/-- The table-resolution part of `transitionGraphemeState`, given the
already-computed property of the next code point.  This mirrors lines
202-236 of grapheme.go: exact lookup, then the two wildcard lookups with
the rule-number tie break, then the GB999 fallback. -/
def transitionGraphemeStateProp (state : GrState) (nextProperty : Property) :
    GrState × Bool :=
  match grTransitions (state, nextProperty) with
  | some transition => (transition.1, transition.2.1 == grBoundary)
  | none =>
    match grTransitions (state, .prAny), grTransitions (.grAny, nextProperty) with
    | some transAnyProp, some transAnyState =>
        (transAnyState.1,
          if transAnyProp.2.2 < transAnyState.2.2 then transAnyProp.2.1 == grBoundary
          else transAnyState.2.1 == grBoundary)
    | some transAnyProp, none => (transAnyProp.1, transAnyProp.2.1 == grBoundary)
    | none, some transAnyState => (transAnyState.1, transAnyState.2.1 == grBoundary)
    | none, none => (.grAny, true)

/-- transitionGraphemeState determines the new state of the grapheme cluster
parser given the current state and the next code point, and whether a
cluster boundary was detected (grapheme.go lines 197-237). -/
def transitionGraphemeState (state : GrState) (r : Nat) : GrState × Bool :=
  transitionGraphemeStateProp state (property r)

/-- utf8.RuneLen: the number of bytes required to encode the rune, or -1 if
the rune is not a valid value to encode in UTF-8 (surrogates and values
above U+10FFFF; negative Go runes are outside this Nat model). -/
def utf8RuneLen (r : Nat) : Int :=
  if r ≤ 0x7F then 1
  else if r ≤ 0x7FF then 2
  else if 0xD800 ≤ r ∧ r ≤ 0xDFFF then -1
  else if r ≤ 0xFFFF then 3
  else if r ≤ 0x10FFFF then 4
  else -1

/-- utf8.ValidRune restricted to non-negative values: legal UTF-8, i.e. not
a surrogate and at most U+10FFFF. -/
def validRune (r : Nat) : Bool :=
  decide (r < 0xD800) || (decide (0xDFFF < r) && decide (r ≤ 0x10FFFF))

/-- Encoding of one rune as UTF-8 bytes, as Go's string conversion does it:
an invalid rune is encoded as U+FFFD (bytes EF BF BD). -/
def encodeRune (r : Nat) : List Nat :=
  if r ≤ 0x7F then [r]
  else if r ≤ 0x7FF then [0xC0 + r / 0x40, 0x80 + r % 0x40]
  else if ¬ validRune r then [0xEF, 0xBF, 0xBD]
  else if r ≤ 0xFFFF then
    [0xE0 + r / 0x1000, 0x80 + r / 0x40 % 0x40, 0x80 + r % 0x40]
  else
    [0xF0 + r / 0x40000, 0x80 + r / 0x1000 % 0x40, 0x80 + r / 0x40 % 0x40,
      0x80 + r % 0x40]

/-- Encoding of a rune sequence as a byte string (Go's `string([]rune)`). -/
def utf8Encode (rs : List Nat) : List Nat := (rs.map encodeRune).flatten

/-- utf8.DecodeRune / utf8.DecodeRuneInString: decodes the first rune of the
byte sequence, returning the rune and the number of bytes consumed.  An
empty input yields (RuneError, 0); a malformed encoding (bad first byte,
bad continuation byte, overlong form, surrogate, out of range, or a
truncated sequence) yields (RuneError, 1). -/
def decodeRune (p : List Nat) : Nat × Nat :=
  match p with
  | [] => (0xFFFD, 0)
  | b0 :: tail =>
    if b0 < 0x80 then (b0, 1)
    else if b0 < 0xC2 then (0xFFFD, 1)
    else if b0 < 0xE0 then
      match tail with
      | b1 :: _ =>
        if 0x80 ≤ b1 ∧ b1 ≤ 0xBF then (b0 % 0x20 * 0x40 + b1 % 0x40, 2)
        else (0xFFFD, 1)
      | _ => (0xFFFD, 1)
    else if b0 < 0xF0 then
      match tail with
      | b1 :: b2 :: _ =>
        if (if b0 = 0xE0 then 0xA0 ≤ b1 ∧ b1 ≤ 0xBF
            else if b0 = 0xED then 0x80 ≤ b1 ∧ b1 ≤ 0x9F
            else 0x80 ≤ b1 ∧ b1 ≤ 0xBF) then
          if 0x80 ≤ b2 ∧ b2 ≤ 0xBF then
            (b0 % 0x10 * 0x1000 + b1 % 0x40 * 0x40 + b2 % 0x40, 3)
          else (0xFFFD, 1)
        else (0xFFFD, 1)
      | _ => (0xFFFD, 1)
    else if b0 < 0xF5 then
      match tail with
      | b1 :: b2 :: b3 :: _ =>
        if (if b0 = 0xF0 then 0x90 ≤ b1 ∧ b1 ≤ 0xBF
            else if b0 = 0xF4 then 0x80 ≤ b1 ∧ b1 ≤ 0x8F
            else 0x80 ≤ b1 ∧ b1 ≤ 0xBF) then
          if 0x80 ≤ b2 ∧ b2 ≤ 0xBF then
            if 0x80 ≤ b3 ∧ b3 ≤ 0xBF then
              (b0 % 0x8 * 0x40000 + b1 % 0x40 * 0x1000 + b2 % 0x40 * 0x40 +
                b3 % 0x40, 4)
            else (0xFFFD, 1)
          else (0xFFFD, 1)
        else (0xFFFD, 1)
      | _ => (0xFFFD, 1)
    else (0xFFFD, 1)

/-- Decoding of a whole byte string into (byte offset, rune) pairs, as Go's
`for pos, r := range s` loop over a string produces them. -/
def decodeString (s : List Nat) (pos : Nat) : List (Nat × Nat) :=
  if h : s = [] then []
  else
    (pos, (decodeRune s).1) ::
      decodeString (s.drop (decodeRune s).2) (pos + (decodeRune s).2)
termination_by s.length
decreasing_by
  have hpos : 1 ≤ (decodeRune s).2 := by
    cases s with
    | nil => exact absurd rfl h
    | cons b0 tail =>
      simp only [decodeRune]
      repeat' split
      all_goals simp
  have hlen : 0 < s.length := by
    cases s with
    | nil => exact absurd rfl h
    | cons b0 tail => simp
  simp only [List.length_drop]
  omega

/-- Graphemes implements the iterator over grapheme clusters of grapheme.go.
The Go field `end` is called `stop` here (`end` is a Lean keyword). -/
structure Graphemes where
  codePoints : List Nat
  indices : List Int
  start : Nat
  stop : Nat
  pos : Nat
  state : GrState
deriving DecidableEq, Repr

/-- Scan loop of Graphemes.Next (grapheme.go lines 168-189): repeatedly
consumes the code point at `pos`, updating the parser state, until the end
of the sequence (GB2), the very first code point (GB1) or a reported
boundary closes the current cluster at `stop` and leaves `pos` one past it. -/
def nextLoop (g : Graphemes) : Graphemes :=
  if g.pos ≤ g.codePoints.length then
    if g.pos = g.codePoints.length then
      { g with stop := g.pos, pos := g.pos + 1 }
    else
      let t := transitionGraphemeState g.state (g.codePoints.getD g.pos 0)
      if g.pos = 0 ∨ t.2 then
        { g with state := t.1, stop := g.pos, pos := g.pos + 1 }
      else
        nextLoop { g with state := t.1, pos := g.pos + 1 }
  else g
termination_by g.codePoints.length + 1 - g.pos
decreasing_by simp_wf; omega

/-- Graphemes.Next advances the iterator by one grapheme cluster and reports
whether one is left (grapheme.go lines 161-192). -/
def Graphemes.next (g : Graphemes) : Graphemes × Bool :=
  let g2 := nextLoop { g with start := g.stop }
  (g2, g2.start != g2.stop)

/-- NewGraphemes returns a new grapheme cluster iterator over the byte
string s (grapheme.go lines 122-139): it decodes the string into the code
point and byte index arrays, appends the total byte length to the indices,
and parses ahead with one Next call. -/
def newGraphemes (s : List Nat) : Graphemes :=
  let prs := decodeString s 0
  (Graphemes.next
    { codePoints := prs.map (fun pr => pr.2)
      indices := prs.map (fun pr => (pr.1 : Int)) ++ [(s.length : Int)]
      start := 0, stop := 0, pos := 0, state := .grAny }).1

/-- Byte index array built by NewGraphemesFromRunes: the running sum of
utf8.RuneLen over the runes, followed by the final total. -/
def fromRunesIndices (rs : List Nat) (pos : Int) : List Int :=
  match rs with
  | [] => [pos]
  | r :: tail => pos :: fromRunesIndices tail (pos + utf8RuneLen r)

/-- NewGraphemesFromRunes returns a new grapheme cluster iterator over a
pre-decoded rune slice (grapheme.go lines 142-156). -/
def newGraphemesFromRunes (rs : List Nat) : Graphemes :=
  (Graphemes.next
    { codePoints := rs
      indices := fromRunesIndices rs 0
      start := 0, stop := 0, pos := 0, state := .grAny }).1

/-- Graphemes.Runes returns the code points of the current cluster, or the
empty (nil) slice past the end or before the first Next (lines 242-247). -/
def Graphemes.runes (g : Graphemes) : List Nat :=
  if g.start = g.stop then []
  else (g.codePoints.drop g.start).take (g.stop - g.start)

/-- Graphemes.Str returns the current cluster re-encoded as a byte string,
or the empty string past the end or before the first Next (lines 252-257). -/
def Graphemes.str (g : Graphemes) : List Nat :=
  if g.start = g.stop then []
  else utf8Encode ((g.codePoints.drop g.start).take (g.stop - g.start))

/-- Graphemes.Bytes returns the current cluster re-encoded as a byte slice,
or the empty (nil) slice past the end or before the first Next (lines
262-267). -/
def Graphemes.bytes (g : Graphemes) : List Nat :=
  if g.start = g.stop then []
  else utf8Encode ((g.codePoints.drop g.start).take (g.stop - g.start))

/-- Graphemes.Positions returns the byte interval of the current cluster in
the original string (lines 275-277). -/
def Graphemes.positions (g : Graphemes) : Int × Int :=
  (g.indices.getD g.start 0, g.indices.getD g.stop 0)

/-- Graphemes.Reset puts the iterator back into its initial state and parses
ahead again (lines 281-284). -/
def Graphemes.reset (g : Graphemes) : Graphemes :=
  (Graphemes.next { g with start := 0, stop := 0, pos := 0, state := .grAny }).1

/-- Iterated application of Graphemes.Next (discarding the flag), used to
describe an iterator in an arbitrary partially- or fully-drained position. -/
def nextIter (g : Graphemes) : Nat → Graphemes
  | 0 => g
  | k + 1 => nextIter (Graphemes.next g).1 k

/-- Fuelled full drain of a Graphemes iterator: the list of iterator
snapshots after each Next call that returned true, and the iterator state
after the first Next call that returned false.  The fuel only bounds the
recursion; `drainG` supplies enough of it for any input. -/
def drainFullFuel : Nat → Graphemes → List Graphemes × Graphemes
  | 0, g => ([], g)
  | fuel + 1, g =>
    let t := Graphemes.next g
    if t.2 then
      let r := drainFullFuel fuel t.1
      (t.1 :: r.1, r.2)
    else ([], t.1)

/-- Full drain of a Graphemes iterator by repeated Next calls, as in
`for g.Next() { ... }` followed by the final failing Next. -/
def drainG (g : Graphemes) : List Graphemes × Graphemes :=
  drainFullFuel (g.codePoints.length + 2) g

/-- GraphemeClusterCount returns the number of grapheme clusters of the
string (grapheme.go lines 289-295). -/
def graphemeClusterCount (s : List Nat) : Nat :=
  (drainG (newGraphemes s)).1.length

/-- Scan loop of firstGraphemeCluster (grapheme.go lines 341-356):
transitions on the rune after the first `length` bytes until a boundary is
found (returning the cluster, the rest and the new state) or the buffer is
exhausted (returning the whole buffer, an empty rest, and grAny). -/
def fgcLoop (b : List Nat) (state : GrState) (length : Nat) :
    List Nat × List Nat × Option GrState :=
  let r := (decodeRune (b.drop length)).1
  let l := (decodeRune (b.drop length)).2
  let t := transitionGraphemeState state r
  if t.2 then (b.take length, b.drop length, some t.1)
  else if b.length ≤ length + l then (b, [], some GrState.grAny)
  else fgcLoop b t.1 (length + l)
termination_by b.length - length
decreasing_by
  rename_i h1 h2
  have hleq : l = (decodeRune (b.drop length)).2 := rfl
  have hne : ¬ b.length ≤ length := by
    intro hle
    have hnil : b.drop length = [] := by
      apply List.eq_nil_of_length_eq_zero
      simp only [List.length_drop]; omega
    have h0 : (decodeRune (b.drop length)).2 = 0 := by rw [hnil]; rfl
    omega
  have hpos : 1 ≤ (decodeRune (b.drop length)).2 := by
    cases hd : b.drop length with
    | nil =>
      exfalso; apply hne
      have := congrArg List.length hd
      simp only [List.length_drop] at this
      simp at this; omega
    | cons b0 tail =>
      simp only [decodeRune]
      repeat' split
      all_goals simp
  simp_wf; omega

/-- firstGraphemeCluster returns the first grapheme cluster found in the
byte slice, the remaining bytes, and the carry-out state (grapheme.go lines
324-356).  The unknown-state sentinel -1 is `none`; the zero value returned
for an empty buffer is the state int 0, i.e. `some .grAny`. -/
def firstGraphemeCluster (b : List Nat) (state : Option GrState) :
    List Nat × List Nat × Option GrState :=
  if b = [] then ([], [], some .grAny)
  else
    let r := (decodeRune b).1
    let length := (decodeRune b).2
    if b.length ≤ length then (b, [], some .grAny)
    else
      let st :=
        match state with
        | none => (transitionGraphemeState .grAny r).1
        | some s0 => s0
      fgcLoop b st length

/-- Scan loop of firstGraphemeClusterInString (grapheme.go lines 379-391);
a Go string is the same byte sequence, so the body coincides with `fgcLoop`
with utf8.DecodeRuneInString in place of utf8.DecodeRune. -/
def fgcsLoop (str : List Nat) (state : GrState) (length : Nat) :
    List Nat × List Nat × Option GrState :=
  let r := (decodeRune (str.drop length)).1
  let l := (decodeRune (str.drop length)).2
  let t := transitionGraphemeState state r
  if t.2 then (str.take length, str.drop length, some t.1)
  else if str.length ≤ length + l then (str, [], some GrState.grAny)
  else fgcsLoop str t.1 (length + l)
termination_by str.length - length
decreasing_by
  rename_i h1 h2
  have hleq : l = (decodeRune (str.drop length)).2 := rfl
  have hne : ¬ str.length ≤ length := by
    intro hle
    have hnil : str.drop length = [] := by
      apply List.eq_nil_of_length_eq_zero
      simp only [List.length_drop]; omega
    have h0 : (decodeRune (str.drop length)).2 = 0 := by rw [hnil]; rfl
    omega
  have hpos : 1 ≤ (decodeRune (str.drop length)).2 := by
    cases hd : str.drop length with
    | nil =>
      exfalso; apply hne
      have := congrArg List.length hd
      simp only [List.length_drop] at this
      simp at this; omega
    | cons b0 tail =>
      simp only [decodeRune]
      repeat' split
      all_goals simp
  simp_wf; omega

/-- firstGraphemeClusterInString is firstGraphemeCluster with string inputs
and outputs (grapheme.go lines 360-392). -/
def firstGraphemeClusterInString (str : List Nat) (state : Option GrState) :
    List Nat × List Nat × Option GrState :=
  if str = [] then ([], [], some .grAny)
  else
    let r := (decodeRune str).1
    let length := (decodeRune str).2
    if str.length ≤ length then (str, [], some .grAny)
    else
      let st :=
        match state with
        | none => (transitionGraphemeState .grAny r).1
        | some s0 => s0
      fgcsLoop str st length

/-- Fuelled drain of the streaming primitive, following the documented call
pattern `state := -1; for len(b) > 0 { c, b, state = firstGraphemeCluster(b,
state) }`: returns the clusters in order and the final carry-out state. -/
def drainStreamFuel : Nat → List Nat → Option GrState →
    List (List Nat) × Option GrState
  | 0, _, state => ([], state)
  | fuel + 1, b, state =>
    if b = [] then ([], state)
    else
      let t := firstGraphemeCluster b state
      let r := drainStreamFuel fuel t.2.1 t.2.2
      (t.1 :: r.1, r.2)

/-- Full drain of the streaming primitive with its final carry-out state.
The fuel `b.length` suffices because every call consumes at least one
byte. -/
def drainStreamAll (b : List Nat) (state : Option GrState) :
    List (List Nat) × Option GrState :=
  drainStreamFuel b.length b state

/-- Cluster sequence produced by fully draining the streaming primitive. -/
def drainStream (b : List Nat) (state : Option GrState) : List (List Nat) :=
  (drainStreamAll b state).1

/-- Consecutive-ranges predicate: `rangesChain a n l` holds when the ranges
in `l` are non-empty, consecutive (each starts where the previous one
stopped, the first at `a`) and end exactly at `n`. -/
def rangesChain (a n : Nat) : List (Nat × Nat) → Bool
  | [] => a == n
  | (s, e) :: tail => s == a && decide (a < e) && rangesChain e n tail

/-- Valid UTF-8, stated as the round trip of the repository's own coding
functions: decoding the byte string to runes and re-encoding it reproduces
it exactly.  Any byte string containing a malformed sequence fails this
(the decoder replaces the malformed bytes by U+FFFD). -/
def ValidUTF8 (s : List Nat) : Prop :=
  utf8Encode ((decodeString s 0).map (fun pr => pr.2)) = s

instance (s : List Nat) : Decidable (ValidUTF8 s) := by
  unfold ValidUTF8; infer_instance

/-- C1: for a (state, property) pair with no exact entry in grTransitions,
the resolver uses the property-specific wildcard's state and the boundary
flag of the lower-ranked of the two wildcard entries (property-specific on
ties) when both wildcards exist, and falls back to (grAny, boundary) when
neither exists. -/
theorem c1_wildcard_resolution (s : GrState) (p : Property)
    (hx : grTransitions (s, p) = none) :
    (∀ tAP tAS, grTransitions (s, .prAny) = some tAP →
      grTransitions (.grAny, p) = some tAS →
      transitionGraphemeStateProp s p =
        (tAS.1,
          if tAP.2.2 < tAS.2.2 then tAP.2.1 == grBoundary
          else tAS.2.1 == grBoundary)) ∧
    (grTransitions (s, .prAny) = none → grTransitions (.grAny, p) = none →
      transitionGraphemeStateProp s p = (.grAny, true)) := by
  constructor
  · intro tAP tAS hAP hAS
    simp only [transitionGraphemeStateProp, hx, hAP, hAS]
  · intro hAP hAS
    simp only [transitionGraphemeStateProp, hx, hAP, hAS]

/-- Witness for C1 at concrete inputs: (grCR, prExtend) resolves through
both wildcards (ranks 40 < 90, so GB4's boundary flag wins and the state
comes from the property-specific entry), and (grL, prAny) hits the GB999
fallback. -/
theorem c1_wildcard_resolution_witness :
    transitionGraphemeStateProp .grCR .prExtend = (.grAny, true) ∧
    transitionGraphemeStateProp .grL .prAny = (.grAny, true) := by
  constructor
  · have h := (c1_wildcard_resolution .grCR .prExtend rfl).1
      (.grAny, grBoundary, 40) (.grAny, grNoBoundary, 90) rfl rfl
    simpa [grBoundary, grNoBoundary] using h
  · exact (c1_wildcard_resolution .grL .prAny rfl).2 rfl rfl

/-- The decoder consumes at least one byte of a non-empty input. -/
theorem decodeRune_size_pos (p : List Nat) (h : p ≠ []) :
    1 ≤ (decodeRune p).2 := by
  cases p with
  | nil => exact absurd rfl h
  | cons b0 tail =>
    simp only [decodeRune]
    repeat' split
    all_goals simp

/-- The decoder never consumes more bytes than the input has. -/
theorem decodeRune_size_le (p : List Nat) : (decodeRune p).2 ≤ p.length := by
  cases p with
  | nil => simp [decodeRune]
  | cons b0 tail =>
    simp only [decodeRune]
    repeat' split
    all_goals (simp_all; try omega)

/-- Prefix stability of the decoder: if decoding `u ++ v` consumes no more
bytes than `u` has, then decoding `u` alone gives the same result.  (All
malformed decodes return (RuneError, 1), so truncating a malformed sequence
cannot change the answer either.) -/
theorem decodeRune_append (u v : List Nat)
    (h : (decodeRune (u ++ v)).2 ≤ u.length) :
    decodeRune u = decodeRune (u ++ v) := by
  match u with
  | [] =>
    match v with
    | [] => rfl
    | x :: xs =>
      exfalso
      have h1 := decodeRune_size_pos (x :: xs) (by simp)
      simp only [List.nil_append, List.length_nil] at h
      omega
  | b0 :: u1 =>
    simp only [List.cons_append, List.length_cons] at h ⊢
    by_cases h80 : b0 < 0x80
    · simp [decodeRune, h80]
    by_cases hC2 : b0 < 0xC2
    · simp [decodeRune, h80, hC2]
    by_cases hE0 : b0 < 0xE0
    · -- two-byte sequences
      simp only [decodeRune, if_neg h80, if_neg hC2, if_pos hE0] at h ⊢
      match u1 with
      | [] =>
        simp only [List.nil_append, List.length_nil] at h ⊢
        match v with
        | [] => rfl
        | b1 :: v1 =>
          by_cases hb1 : 0x80 ≤ b1 ∧ b1 ≤ 0xBF
          · simp [hb1] at h
          · simp [hb1]
      | b1 :: u2 => simp
    by_cases hF0 : b0 < 0xF0
    · -- three-byte sequences
      simp only [decodeRune, if_neg h80, if_neg hC2, if_neg hE0, if_pos hF0] at h ⊢
      match u1 with
      | [] =>
        simp only [List.nil_append, List.length_nil] at h ⊢
        match v with
        | [] => rfl
        | [b1] => rfl
        | b1 :: b2 :: v2 =>
          by_cases hb1 : (if b0 = 0xE0 then 0xA0 ≤ b1 ∧ b1 ≤ 0xBF
              else if b0 = 0xED then 0x80 ≤ b1 ∧ b1 ≤ 0x9F
              else 0x80 ≤ b1 ∧ b1 ≤ 0xBF)
          · by_cases hb2 : 0x80 ≤ b2 ∧ b2 ≤ 0xBF
            · simp [hb1, hb2] at h
            · simp [hb1, hb2]
          · simp [hb1]
      | [b1] =>
        simp only [List.cons_append, List.nil_append, List.length_cons,
          List.length_nil] at h ⊢
        match v with
        | [] => rfl
        | b2 :: v2 =>
          by_cases hb1 : (if b0 = 0xE0 then 0xA0 ≤ b1 ∧ b1 ≤ 0xBF
              else if b0 = 0xED then 0x80 ≤ b1 ∧ b1 ≤ 0x9F
              else 0x80 ≤ b1 ∧ b1 ≤ 0xBF)
          · by_cases hb2 : 0x80 ≤ b2 ∧ b2 ≤ 0xBF
            · simp [hb1, hb2] at h
            · simp [hb1, hb2]
          · simp [hb1]
      | b1 :: b2 :: u3 => simp
    by_cases hF5 : b0 < 0xF5
    · -- four-byte sequences
      simp only [decodeRune, if_neg h80, if_neg hC2, if_neg hE0, if_neg hF0,
        if_pos hF5] at h ⊢
      match u1 with
      | [] =>
        simp only [List.nil_append, List.length_nil] at h ⊢
        match v with
        | [] => rfl
        | [b1] => rfl
        | [b1, b2] => rfl
        | b1 :: b2 :: b3 :: v3 =>
          by_cases hb1 : (if b0 = 0xF0 then 0x90 ≤ b1 ∧ b1 ≤ 0xBF
              else if b0 = 0xF4 then 0x80 ≤ b1 ∧ b1 ≤ 0x8F
              else 0x80 ≤ b1 ∧ b1 ≤ 0xBF)
          · by_cases hb2 : 0x80 ≤ b2 ∧ b2 ≤ 0xBF
            · by_cases hb3 : 0x80 ≤ b3 ∧ b3 ≤ 0xBF
              · simp [hb1, hb2, hb3] at h
              · simp [hb1, hb2, hb3]
            · simp [hb1, hb2]
          · simp [hb1]
      | [b1] =>
        simp only [List.cons_append, List.nil_append, List.length_cons,
          List.length_nil] at h ⊢
        match v with
        | [] => rfl
        | [b2] => rfl
        | b2 :: b3 :: v3 =>
          by_cases hb1 : (if b0 = 0xF0 then 0x90 ≤ b1 ∧ b1 ≤ 0xBF
              else if b0 = 0xF4 then 0x80 ≤ b1 ∧ b1 ≤ 0x8F
              else 0x80 ≤ b1 ∧ b1 ≤ 0xBF)
          · by_cases hb2 : 0x80 ≤ b2 ∧ b2 ≤ 0xBF
            · by_cases hb3 : 0x80 ≤ b3 ∧ b3 ≤ 0xBF
              · simp [hb1, hb2, hb3] at h
              · simp [hb1, hb2, hb3]
            · simp [hb1, hb2]
          · simp [hb1]
      | [b1, b2] =>
        simp only [List.cons_append, List.nil_append, List.length_cons,
          List.length_nil] at h ⊢
        match v with
        | [] => rfl
        | b3 :: v3 =>
          by_cases hb1 : (if b0 = 0xF0 then 0x90 ≤ b1 ∧ b1 ≤ 0xBF
              else if b0 = 0xF4 then 0x80 ≤ b1 ∧ b1 ≤ 0x8F
              else 0x80 ≤ b1 ∧ b1 ≤ 0xBF)
          · by_cases hb2 : 0x80 ≤ b2 ∧ b2 ≤ 0xBF
            · by_cases hb3 : 0x80 ≤ b3 ∧ b3 ≤ 0xBF
              · simp [hb1, hb2, hb3] at h
              · simp [hb1, hb2, hb3]
            · simp [hb1, hb2]
          · simp [hb1]
      | b1 :: b2 :: b3 :: u4 => simp
    · simp [decodeRune, h80, hC2, hE0, hF0, hF5]

/-- The scan loop does nothing once the scan position is past the end. -/
theorem nextLoop_skip (g : Graphemes) (h : ¬ g.pos ≤ g.codePoints.length) :
    nextLoop g = g := by
  unfold nextLoop
  rw [if_neg h]

/-- The scan loop closes the cluster at some position q between the current
scan position and the end of the sequence, leaving the scan position at
q + 1 and all other fields (except the parser state) unchanged. -/
theorem nextLoop_spec (n : Nat) : ∀ g : Graphemes,
    g.codePoints.length + 1 - g.pos ≤ n → g.pos ≤ g.codePoints.length →
    ∃ q st, g.pos ≤ q ∧ q ≤ g.codePoints.length ∧
      nextLoop g = { g with state := st, stop := q, pos := q + 1 } := by
  induction n with
  | zero => intro g h1 h2; omega
  | succ n ih =>
    intro g h1 h2
    unfold nextLoop
    rw [if_pos h2]
    by_cases he : g.pos = g.codePoints.length
    · rw [if_pos he]
      exact ⟨g.pos, g.state, le_refl _, by omega, rfl⟩
    · rw [if_neg he]
      simp only []
      by_cases hb : g.pos = 0 ∨
          (transitionGraphemeState g.state (g.codePoints.getD g.pos 0)).2 = true
      · rw [if_pos hb]
        exact ⟨g.pos,
          (transitionGraphemeState g.state (g.codePoints.getD g.pos 0)).1,
          le_refl _, by omega, rfl⟩
      · rw [if_neg hb]
        obtain ⟨q, st, hq1, hq2, hq3⟩ :=
          ih { g with
              state := (transitionGraphemeState g.state
                (g.codePoints.getD g.pos 0)).1
              pos := g.pos + 1 }
            (by simp; omega) (by simp; omega)
        simp only [] at hq3
        exact ⟨q, st, by simp at hq1; omega, by simpa using hq2, hq3⟩

/-- Next on an iterator whose current cluster already ends at the end of the
sequence: it only moves `start` up to `stop` and reports false. -/
theorem next_done (g : Graphemes) (hI : g.pos = g.stop + 1)
    (hstop : g.stop = g.codePoints.length) :
    Graphemes.next g = ({ g with start := g.stop }, false) := by
  unfold Graphemes.next
  have hskip : ¬ ({ g with start := g.stop } : Graphemes).pos ≤
      ({ g with start := g.stop } : Graphemes).codePoints.length := by
    simp; omega
  rw [nextLoop_skip _ hskip]
  simp

/-- Next on an iterator whose current cluster stops before the end: it
produces a strictly later stop position q ≤ length and reports true. -/
theorem next_more (g : Graphemes) (hI : g.pos = g.stop + 1)
    (hstop : g.stop < g.codePoints.length) :
    ∃ q st, g.stop < q ∧ q ≤ g.codePoints.length ∧
      Graphemes.next g =
        ({ g with start := g.stop, state := st, stop := q, pos := q + 1 }, true) := by
  unfold Graphemes.next
  obtain ⟨q, st, hq1, hq2, hq3⟩ :=
    nextLoop_spec (g.codePoints.length + 1)
      { g with start := g.stop } (by simp) (by simp; omega)
  simp only [] at hq3
  simp only at hq1 hq2
  refine ⟨q, st, by omega, hq2, ?_⟩
  rw [hq3]
  simp only [Prod.mk.injEq]
  constructor
  · trivial
  · simp
    omega

/-- The parse-ahead call made by the constructors: from the all-zero
initial state it closes an empty cluster at 0 and leaves the scan position
at 1. -/
theorem prime_shape (cp : List Nat) (idx : List Int) (st : GrState) :
    ∃ st2, (Graphemes.next ⟨cp, idx, 0, 0, 0, st⟩).1 = ⟨cp, idx, 0, 0, 1, st2⟩ := by
  unfold Graphemes.next
  cases cp with
  | nil =>
    refine ⟨st, ?_⟩
    unfold nextLoop
    simp
  | cons c cptail =>
    refine ⟨(transitionGraphemeState st c).1, ?_⟩
    unfold nextLoop
    simp

/-- Master lemma about a full drain: given the invariant pos = stop + 1 and
enough fuel, every snapshot keeps the code points and indices of the start
iterator, the (start, stop) ranges of the snapshots form a consecutive
non-empty chain from the initial stop to the scalar count, and the final
iterator ends with start = stop = scalar count and pos just past it. -/
theorem drainFullFuel_spec (fuel : Nat) : ∀ g : Graphemes,
    g.pos = g.stop + 1 → g.stop ≤ g.codePoints.length →
    g.codePoints.length - g.stop < fuel →
    (∀ h ∈ (drainFullFuel fuel g).1,
        h.codePoints = g.codePoints ∧ h.indices = g.indices) ∧
    rangesChain g.stop g.codePoints.length
      ((drainFullFuel fuel g).1.map (fun h => (h.start, h.stop))) = true ∧
    ((drainFullFuel fuel g).2.codePoints = g.codePoints ∧
      (drainFullFuel fuel g).2.indices = g.indices ∧
      (drainFullFuel fuel g).2.start = g.codePoints.length ∧
      (drainFullFuel fuel g).2.stop = g.codePoints.length ∧
      (drainFullFuel fuel g).2.pos = g.codePoints.length + 1) := by
  induction fuel with
  | zero => intro g _ _ h3; omega
  | succ fuel ih =>
    intro g hI hle hfuel
    by_cases hdone : g.stop = g.codePoints.length
    · have hnx := next_done g hI hdone
      simp only [drainFullFuel, hnx]
      simp [rangesChain, hdone, hI]
    · have hstop : g.stop < g.codePoints.length := by omega
      obtain ⟨q, st, hq1, hq2, hnx⟩ := next_more g hI hstop
      have hih := ih { g with start := g.stop, state := st, stop := q, pos := q + 1 }
        (by simp) (by simpa using hq2) (by simp; omega)
      simp only [drainFullFuel, hnx]
      simp only [] at hih ⊢
      obtain ⟨ihmem, ihchain, ihfin⟩ := hih
      refine ⟨?_, ?_, ?_⟩
      · intro h hmem
        simp at hmem
        rcases hmem with hmem | hmem
        · subst hmem; simp
        · have := ihmem h hmem
          simpa using this
      · simp only [List.map_cons, rangesChain]
        simp [ihchain, hq1]
      · simpa using ihfin

/-- utf8Encode distributes over concatenation. -/
theorem utf8Encode_append (xs ys : List Nat) :
    utf8Encode (xs ++ ys) = utf8Encode xs ++ utf8Encode ys := by
  simp [utf8Encode]

/-- Concatenating the per-range slices of a consecutive chain of ranges
starting at `a` yields the drop of the underlying list at `a`. -/
theorem chain_slices_flatten (cp : List Nat) : ∀ (rl : List (Nat × Nat)) (a : Nat),
    rangesChain a cp.length rl = true →
    (rl.map (fun pr => (cp.drop pr.1).take (pr.2 - pr.1))).flatten = cp.drop a := by
  intro rl
  induction rl with
  | nil =>
    intro a hc
    simp [rangesChain] at hc
    simp [hc, List.drop_eq_nil_of_le]
  | cons hd tl ih =>
    intro a hc
    obtain ⟨s, e⟩ := hd
    simp only [rangesChain, Bool.and_eq_true, beq_iff_eq, decide_eq_true_eq] at hc
    obtain ⟨⟨hs, hae⟩, hrest⟩ := hc
    subst hs
    simp only [List.map_cons, List.flatten_cons, ih e hrest]
    have h1 : (cp.drop s).take (e - s) ++ (cp.drop s).drop (e - s) = cp.drop s :=
      List.take_append_drop _ _
    have h2 : (cp.drop s).drop (e - s) = cp.drop e := by
      rw [List.drop_drop]
      congr 1
      omega
    rw [h2] at h1
    exact h1

/-- The number of ranges in a consecutive chain from `a` to `n` is at most
n - a (each range is non-empty). -/
theorem chain_length (n : Nat) : ∀ (rl : List (Nat × Nat)) (a : Nat),
    rangesChain a n rl = true → rl.length ≤ n - a := by
  intro rl
  induction rl with
  | nil => intro a _; simp
  | cons hd tl ih =>
    intro a hc
    obtain ⟨s, e⟩ := hd
    simp only [rangesChain, Bool.and_eq_true, beq_iff_eq, decide_eq_true_eq] at hc
    obtain ⟨⟨hs, hae⟩, hrest⟩ := hc
    have h1 := ih e hrest
    have h2 : e ≤ n := by
      clear ih h1
      induction tl generalizing e with
      | nil => simp [rangesChain] at hrest; omega
      | cons hd2 tl2 ih2 =>
        obtain ⟨s2, e2⟩ := hd2
        simp only [rangesChain, Bool.and_eq_true, beq_iff_eq,
          decide_eq_true_eq] at hrest
        obtain ⟨⟨hs2, hae2⟩, hrest2⟩ := hrest
        have := ih2 e2 hrest2
        omega
    simp only [List.length_cons]
    omega

/-- Shape of a freshly constructed iterator: after the parse-ahead call the
current cluster is empty at position 0 and the scan position is 1. -/
theorem newGraphemes_shape (s : List Nat) :
    ∃ st, newGraphemes s =
      ⟨(decodeString s 0).map (fun pr => pr.2),
        (decodeString s 0).map (fun pr => (pr.1 : Int)) ++ [(s.length : Int)],
        0, 0, 1, st⟩ := by
  unfold newGraphemes
  simp only []
  exact prime_shape _ _ _

/-- Shape of a freshly constructed from-runes iterator. -/
theorem newGraphemesFromRunes_shape (rs : List Nat) :
    ∃ st, newGraphemesFromRunes rs = ⟨rs, fromRunesIndices rs 0, 0, 0, 1, st⟩ := by
  unfold newGraphemesFromRunes
  exact prime_shape _ _ _

/-- Concatenating the texts of a chain of snapshot clusters over the same
code point array re-encodes the array from the chain's start index. -/
theorem chain_strs_flatten (cp : List Nat) : ∀ (snaps : List Graphemes) (a : Nat),
    (∀ h ∈ snaps, h.codePoints = cp) →
    rangesChain a cp.length (snaps.map (fun h => (h.start, h.stop))) = true →
    (snaps.map Graphemes.str).flatten = utf8Encode (cp.drop a) := by
  intro snaps
  induction snaps with
  | nil =>
    intro a _ hc
    simp [rangesChain] at hc
    simp [hc, List.drop_eq_nil_of_le, utf8Encode]
  | cons hd tl ih =>
    intro a hmem hc
    simp only [List.map_cons, rangesChain, Bool.and_eq_true, beq_iff_eq,
      decide_eq_true_eq] at hc
    obtain ⟨⟨hs, hae⟩, hrest⟩ := hc
    have hcp : hd.codePoints = cp := hmem hd (by simp)
    have htl : ∀ h ∈ tl, h.codePoints = cp := fun h hm => hmem h (by simp [hm])
    have hne : ¬ hd.start = hd.stop := by omega
    simp only [List.map_cons, List.flatten_cons, ih hd.stop htl hrest]
    rw [Graphemes.str, if_neg hne, hcp, hs, ← utf8Encode_append]
    congr 1
    have h2 : (cp.drop a).drop (hd.stop - a) = cp.drop hd.stop := by
      rw [List.drop_drop]
      congr 1
      omega
    conv_rhs => rw [← List.take_append_drop (hd.stop - a) (cp.drop a)]
    rw [h2]

/-- C2 (amended): for every input string, the cluster ranges yielded by a
full drain of a fresh Graphemes iterator form a consecutive chain of
non-empty, non-overlapping ranges covering exactly [0, N) over scalar
indices, and the concatenation of the yielded cluster texts is the UTF-8
re-encoding of the decoded scalar sequence; for valid UTF-8 input (no
bytes replaced by U+FFFD during decoding), that concatenation reproduces
the original string exactly. -/
theorem c2_cluster_partition (s : List Nat) :
    rangesChain 0 (newGraphemes s).codePoints.length
      ((drainG (newGraphemes s)).1.map (fun h => (h.start, h.stop))) = true ∧
    ((drainG (newGraphemes s)).1.map Graphemes.str).flatten =
      utf8Encode (newGraphemes s).codePoints ∧
    (ValidUTF8 s →
      ((drainG (newGraphemes s)).1.map Graphemes.str).flatten = s) := by
  obtain ⟨st, hsh⟩ := newGraphemes_shape s
  have hstop0 : (newGraphemes s).stop = 0 := by rw [hsh]
  have hspec := drainFullFuel_spec ((newGraphemes s).codePoints.length + 2)
    (newGraphemes s) (by rw [hsh]) (by rw [hsh]; simp) (by omega)
  rw [hstop0] at hspec
  have hchain : rangesChain 0 (newGraphemes s).codePoints.length
      ((drainG (newGraphemes s)).1.map (fun h => (h.start, h.stop))) = true :=
    hspec.2.1
  have hconcat : ((drainG (newGraphemes s)).1.map Graphemes.str).flatten =
      utf8Encode (newGraphemes s).codePoints := by
    have := chain_strs_flatten (newGraphemes s).codePoints
      (drainG (newGraphemes s)).1 0 (fun h hm => (hspec.1 h hm).1) hchain
    simpa using this
  refine ⟨hchain, hconcat, ?_⟩
  intro hv
  rw [hconcat]
  have hcp : (newGraphemes s).codePoints =
      (decodeString s 0).map (fun pr => pr.2) := by rw [hsh]
  rw [hcp]
  exact hv

/-- Witness for C2 at a concrete valid input. -/
theorem c2_cluster_partition_witness :
    ValidUTF8 [0x61] ∧
      ((drainG (newGraphemes [0x61])).1.map Graphemes.str).flatten = [0x61] := by
  have hv : ValidUTF8 [0x61] := by
    simp [ValidUTF8, decodeString, decodeRune, utf8Encode, encodeRune]
  exact ⟨hv, (c2_cluster_partition [0x61]).2.2 hv⟩

/-- Counterexample to C2 as stated: on the invalid UTF-8 input consisting of
the single byte 0xFF, the concatenation of the yielded cluster texts is the
U+FFFD replacement character's encoding, not the original string. -/
theorem c2_cluster_partition_counterexample :
    ((drainG (newGraphemes [0xFF])).1.map Graphemes.str).flatten ≠ [0xFF] := by
  simp [drainG, drainFullFuel, newGraphemes, decodeString, decodeRune,
    Graphemes.next, nextLoop, transitionGraphemeState, transitionGraphemeStateProp,
    property, grTransitions, Graphemes.str, utf8Encode, encodeRune, validRune]

/-- The first entry of a non-empty string decoding is at byte offset 0. -/
theorem decodeString_head (s : List Nat) (h : ¬ s = []) :
    decodeString s 0 =
      (0, (decodeRune s).1) ::
        decodeString (s.drop (decodeRune s).2) (decodeRune s).2 := by
  rw [decodeString]
  rw [dif_neg h]
  simp

/-- Reading the element just past a list, in a list extended by one final
element, yields that element. -/
theorem getD_append_singleton (l : List Int) (x : Int) :
    (l ++ [x]).getD l.length 0 = x := by
  induction l with
  | nil => simp
  | cons a t ih => simpa using ih

/-- C3: before the first user call to Next and after exhaustion, Runes, Str
and Bytes yield the designated empty results, and Positions yields (0, 0)
before the start and (totalBytes, totalBytes) after exhaustion. -/
theorem c3_accessor_sentinels (s : List Nat) :
    (newGraphemes s).runes = [] ∧ (newGraphemes s).str = [] ∧
    (newGraphemes s).bytes = [] ∧
    (newGraphemes s).positions = (0, 0) ∧
    (drainG (newGraphemes s)).2.runes = [] ∧
    (drainG (newGraphemes s)).2.str = [] ∧
    (drainG (newGraphemes s)).2.bytes = [] ∧
    (drainG (newGraphemes s)).2.positions = ((s.length : Int), (s.length : Int)) := by
  obtain ⟨st, hsh⟩ := newGraphemes_shape s
  have hidx0 : (newGraphemes s).indices.getD 0 0 = 0 := by
    rw [hsh]
    by_cases h : s = []
    · subst h
      simp [decodeString]
    · rw [decodeString_head s h]
      simp
  have hspec := drainFullFuel_spec ((newGraphemes s).codePoints.length + 2)
    (newGraphemes s) (by rw [hsh]) (by rw [hsh]; simp) (by omega)
  obtain ⟨hfcp, hfidx, hfstart, hfstop, hfpos⟩ := hspec.2.2
  have hfinpos : (drainG (newGraphemes s)).2.positions =
      ((s.length : Int), (s.length : Int)) := by
    unfold Graphemes.positions drainG
    rw [hfstart, hfstop, hfidx, hsh]
    simp only [List.length_map]
    have hg := getD_append_singleton
      ((decodeString s 0).map (fun pr => (pr.1 : Int))) ((s.length : Int))
    simp only [List.length_map] at hg
    rw [hg]
  refine ⟨?_, ?_, ?_, ?_, ?_, ?_, ?_, hfinpos⟩
  · rw [hsh]; simp [Graphemes.runes]
  · rw [hsh]; simp [Graphemes.str]
  · rw [hsh]; simp [Graphemes.bytes]
  · unfold Graphemes.positions
    have hstart0 : (newGraphemes s).start = 0 := by rw [hsh]
    have hstop0 : (newGraphemes s).stop = 0 := by rw [hsh]
    rw [hstart0, hstop0, hidx0]
  · simp [drainG, Graphemes.runes, hfstart, hfstop]
  · simp [drainG, Graphemes.str, hfstart, hfstop]
  · simp [drainG, Graphemes.bytes, hfstart, hfstop]

/-- The scan loop never changes the code point and index arrays nor the
cluster start. -/
theorem nextLoop_fields (g : Graphemes) :
    (nextLoop g).codePoints = g.codePoints ∧ (nextLoop g).indices = g.indices ∧
    (nextLoop g).start = g.start := by
  by_cases h : g.pos ≤ g.codePoints.length
  · obtain ⟨q, st, _, _, h3⟩ := nextLoop_spec (g.codePoints.length + 1) g (by omega) h
    rw [h3]
    exact ⟨rfl, rfl, rfl⟩
  · rw [nextLoop_skip g h]
    exact ⟨rfl, rfl, rfl⟩

/-- Next never changes the code point and index arrays. -/
theorem next_fields (g : Graphemes) :
    (Graphemes.next g).1.codePoints = g.codePoints ∧
    (Graphemes.next g).1.indices = g.indices := by
  unfold Graphemes.next
  simp only []
  have h := nextLoop_fields { g with start := g.stop }
  exact ⟨h.1, h.2.1⟩

/-- Iterated Next never changes the code point and index arrays. -/
theorem nextIter_fields (k : Nat) : ∀ g : Graphemes,
    (nextIter g k).codePoints = g.codePoints ∧
    (nextIter g k).indices = g.indices := by
  induction k with
  | zero => intro g; exact ⟨rfl, rfl⟩
  | succ k ih =>
    intro g
    have h1 := ih (Graphemes.next g).1
    have h2 := next_fields g
    unfold nextIter
    exact ⟨h1.1.trans h2.1, h1.2.trans h2.2⟩

/-- Reset of any iterator that carries the arrays of `newGraphemes s`
rebuilds exactly `newGraphemes s`. -/
theorem reset_eq (g : Graphemes) (s : List Nat)
    (hcp : g.codePoints = (newGraphemes s).codePoints)
    (hidx : g.indices = (newGraphemes s).indices) :
    Graphemes.reset g = newGraphemes s := by
  obtain ⟨st, hsh⟩ := newGraphemes_shape s
  rw [hsh] at hcp hidx
  simp only [] at hcp hidx
  unfold Graphemes.reset newGraphemes
  simp only []
  rw [show ({ g with start := 0, stop := 0, pos := 0, state := .grAny } : Graphemes) =
    ⟨(decodeString s 0).map (fun pr => pr.2),
      (decodeString s 0).map (fun pr => (pr.1 : Int)) ++ [(s.length : Int)],
      0, 0, 0, .grAny⟩ from by rw [← hcp, ← hidx]]

/-- C8: from any partially or fully drained position of an iterator over s,
Reset rebuilds exactly the freshly constructed iterator, so the subsequent
drain (snapshots, hence Runes, Str, Bytes and Positions at every step, and
the number of true Next results) is identical to a fresh drain. -/
theorem c8_reset_replay (s : List Nat) (k : Nat) :
    Graphemes.reset (nextIter (newGraphemes s) k) = newGraphemes s ∧
    drainG (Graphemes.reset (nextIter (newGraphemes s) k)) = drainG (newGraphemes s) ∧
    (drainG (Graphemes.reset (nextIter (newGraphemes s) k))).1.map Graphemes.runes =
      (drainG (newGraphemes s)).1.map Graphemes.runes ∧
    (drainG (Graphemes.reset (nextIter (newGraphemes s) k))).1.map Graphemes.str =
      (drainG (newGraphemes s)).1.map Graphemes.str ∧
    (drainG (Graphemes.reset (nextIter (newGraphemes s) k))).1.map Graphemes.bytes =
      (drainG (newGraphemes s)).1.map Graphemes.bytes ∧
    (drainG (Graphemes.reset (nextIter (newGraphemes s) k))).1.map Graphemes.positions =
      (drainG (newGraphemes s)).1.map Graphemes.positions ∧
    (drainG (Graphemes.reset (nextIter (newGraphemes s) k))).1.length =
      (drainG (newGraphemes s)).1.length := by
  have hf := nextIter_fields k (newGraphemes s)
  have h := reset_eq (nextIter (newGraphemes s) k) s hf.1 hf.2
  rw [h]
  exact ⟨rfl, rfl, rfl, rfl, rfl, rfl, rfl⟩

/-- Scalars in the regional-indicator block classify as RegionalIndicator. -/
theorem property_RI (r : Nat) (h1 : 0x1F1E6 ≤ r) (h2 : r ≤ 0x1F1FF) :
    property r = .prRegionalIndicator := by
  unfold property
  iterate 25 rw [if_neg (by omega)]
  rw [if_pos (by omega)]

set_option maxHeartbeats 2000000 in
/-- C7: exactly three consecutive regional-indicator scalars drain to two
clusters (the first two indicators, then the third alone); exactly two
drain to a single cluster containing both. -/
theorem c7_regional_indicator_pairs (r1 r2 r3 : Nat)
    (h1 : 0x1F1E6 ≤ r1 ∧ r1 ≤ 0x1F1FF)
    (h2 : 0x1F1E6 ≤ r2 ∧ r2 ≤ 0x1F1FF)
    (h3 : 0x1F1E6 ≤ r3 ∧ r3 ≤ 0x1F1FF) :
    (drainG (newGraphemesFromRunes [r1, r2, r3])).1.map Graphemes.runes =
      [[r1, r2], [r3]] ∧
    (drainG (newGraphemesFromRunes [r1, r2])).1.map Graphemes.runes = [[r1, r2]] := by
  have hp1 := property_RI r1 h1.1 h1.2
  have hp2 := property_RI r2 h2.1 h2.2
  have hp3 := property_RI r3 h3.1 h3.2
  constructor
  · simp [drainG, drainFullFuel, newGraphemesFromRunes, Graphemes.next, nextLoop,
      transitionGraphemeState, hp1, hp2, hp3, transitionGraphemeStateProp,
      grTransitions, Graphemes.runes, grBoundary, grNoBoundary]
  · simp [drainG, drainFullFuel, newGraphemesFromRunes, Graphemes.next, nextLoop,
      transitionGraphemeState, hp1, hp2, transitionGraphemeStateProp,
      grTransitions, Graphemes.runes, grBoundary, grNoBoundary]

/-- Witness for C7 at the concrete regional indicators A, B, C. -/
theorem c7_regional_indicator_pairs_witness :
    (drainG (newGraphemesFromRunes [0x1F1E6, 0x1F1E7, 0x1F1E8])).1.map
        Graphemes.runes = [[0x1F1E6, 0x1F1E7], [0x1F1E8]] ∧
    (drainG (newGraphemesFromRunes [0x1F1E6, 0x1F1E7])).1.map Graphemes.runes =
      [[0x1F1E6, 0x1F1E7]] :=
  c7_regional_indicator_pairs 0x1F1E6 0x1F1E7 0x1F1E8
    (by constructor <;> norm_num) (by constructor <;> norm_num)
    (by constructor <;> norm_num)

/-- Whenever the resolver reports a boundary, the new state only depends on
the property of the scalar just consumed: it equals the state reached from
Start/Any on that property.  (This is what makes state rediscovery after a
boundary sound.)  Checked over all 165 (state, property) pairs. -/
theorem trans_boundary_state (st : GrState) (p : Property)
    (h : (transitionGraphemeStateProp st p).2 = true) :
    (transitionGraphemeStateProp st p).1 =
      (transitionGraphemeStateProp .grAny p).1 := by
  revert h
  cases st <;> cases p <;> decide

/-- Shape of the streaming scan loop, starting strictly inside the buffer:
either it finds a boundary at some L (not before the entry offset, strictly
inside the buffer), returning the split at L with the rediscoverable state
reached on the boundary scalar, or it exhausts the buffer.  The boundary
offset never precedes the entry offset, and the decoded size at the
boundary is part of the split. -/
theorem fgcLoop_shape (n : Nat) : ∀ (b : List Nat) (st : GrState) (length : Nat),
    b.length - length ≤ n → length < b.length →
    (∃ L st2, length ≤ L ∧ L < b.length ∧
      fgcLoop b st length = (b.take L, b.drop L, some st2) ∧
      st2 = (transitionGraphemeState .grAny (decodeRune (b.drop L)).1).1) ∨
    fgcLoop b st length = (b, [], some .grAny) := by
  induction n with
  | zero => intro b st length h1 h2; omega
  | succ n ih =>
    intro b st length h1 h2
    rw [fgcLoop]
    by_cases ht : (transitionGraphemeState st (decodeRune (b.drop length)).1).2 = true
    · left
      refine ⟨length, (transitionGraphemeState st (decodeRune (b.drop length)).1).1,
        le_refl _, h2, ?_, ?_⟩
      · rw [if_pos ht]
      · have hb := trans_boundary_state st (property (decodeRune (b.drop length)).1)
          (by exact ht)
        exact hb
    · rw [if_neg ht]
      by_cases hx : b.length ≤ length + (decodeRune (b.drop length)).2
      · right
        rw [if_pos hx]
      · rw [if_neg hx]
        have hlpos : 1 ≤ (decodeRune (b.drop length)).2 := by
          apply decodeRune_size_pos
          intro hnil
          have := congrArg List.length hnil
          simp only [List.length_drop, List.length_nil] at this
          omega
        have := ih b (transitionGraphemeState st (decodeRune (b.drop length)).1).1
          (length + (decodeRune (b.drop length)).2) (by omega) (by omega)
        rcases this with ⟨L, st2, hL1, hL2, hL3, hL4⟩ | hdone
        · exact Or.inl ⟨L, st2, by omega, hL2, hL3, hL4⟩
        · exact Or.inr hdone

/-- If the scan loop, entered at `length`, returns the split of the buffer
at a boundary L strictly inside the buffer, then L is not before the entry
offset. -/
theorem fgcLoop_mono (n : Nat) : ∀ (b : List Nat) (st : GrState) (length L : Nat)
    (st2 : GrState), b.length - length ≤ n → L < b.length →
    fgcLoop b st length = (b.take L, b.drop L, some st2) →
    length ≤ L := by
  induction n with
  | zero =>
    intro b st length L st2 h1 h2 heq
    by_cases hlen : length ≤ L
    · exact hlen
    · exfalso
      rw [fgcLoop] at heq
      by_cases ht : (transitionGraphemeState st (decodeRune (b.drop length)).1).2 = true
      · rw [if_pos ht] at heq
        have hd := congrArg (fun t => t.2.1.length) heq
        simp only [List.length_drop] at hd
        omega
      · rw [if_neg ht] at heq
        by_cases hx : b.length ≤ length + (decodeRune (b.drop length)).2
        · rw [if_pos hx] at heq
          have hd := congrArg (fun t => t.2.1.length) heq
          simp only [List.length_drop, List.length_nil] at hd
          omega
        · rw [if_neg hx] at heq
          have hlpos : 1 ≤ (decodeRune (b.drop length)).2 := by
            apply decodeRune_size_pos
            intro hnil
            have := congrArg List.length hnil
            simp only [List.length_drop, List.length_nil] at this
            omega
          omega
  | succ n ih =>
    intro b st length L st2 h1 h2 heq
    rw [fgcLoop] at heq
    by_cases ht : (transitionGraphemeState st (decodeRune (b.drop length)).1).2 = true
    · rw [if_pos ht] at heq
      have hd := congrArg (fun t => t.2.1.length) heq
      simp only [List.length_drop] at hd
      omega
    · rw [if_neg ht] at heq
      by_cases hx : b.length ≤ length + (decodeRune (b.drop length)).2
      · rw [if_pos hx] at heq
        have hd := congrArg (fun t => t.2.1.length) heq
        simp only [List.length_drop, List.length_nil] at hd
        omega
      · rw [if_neg hx] at heq
        have hlpos : 1 ≤ (decodeRune (b.drop length)).2 := by
          apply decodeRune_size_pos
          intro hnil
          have := congrArg List.length hnil
          simp only [List.length_drop, List.length_nil] at this
          omega
        have := ih b (transitionGraphemeState st (decodeRune (b.drop length)).1).1
          (length + (decodeRune (b.drop length)).2) L st2 (by omega) h2 heq
        omega

/-- Case analysis of firstGraphemeCluster on a non-empty buffer: either it
splits the buffer at a boundary L with 1 ≤ L < |b|, at least the size of
the first decoded rune, carrying out the state rediscoverable from the
remainder's first rune; or it returns the whole buffer, an empty remainder
and grAny. -/
theorem fgc_cases (b : List Nat) (st : Option GrState) (hb : b ≠ []) :
    (∃ L st2, (decodeRune b).2 ≤ L ∧ 1 ≤ L ∧ L < b.length ∧
      firstGraphemeCluster b st = (b.take L, b.drop L, some st2) ∧
      st2 = (transitionGraphemeState .grAny (decodeRune (b.drop L)).1).1) ∨
    firstGraphemeCluster b st = (b, [], some .grAny) := by
  unfold firstGraphemeCluster
  rw [if_neg hb]
  simp only []
  by_cases hlen : b.length ≤ (decodeRune b).2
  · right
    rw [if_pos hlen]
  · rw [if_neg hlen]
    have hpos := decodeRune_size_pos b hb
    rcases fgcLoop_shape b.length b
        (match st with
          | none => (transitionGraphemeState .grAny (decodeRune b).1).1
          | some s0 => s0) (decodeRune b).2 (by omega) (by omega) with
      ⟨L, st2, hL1, hL2, hL3, hL4⟩ | hdone
    · exact Or.inl ⟨L, st2, hL1, by omega, hL2, hL3, hL4⟩
    · exact Or.inr hdone

/-- The cluster and remainder of firstGraphemeCluster concatenate to the
input buffer. -/
theorem fgc_parts (b : List Nat) (st : Option GrState) :
    (firstGraphemeCluster b st).1 ++ (firstGraphemeCluster b st).2.1 = b := by
  by_cases hb : b = []
  · subst hb; rfl
  · rcases fgc_cases b st hb with ⟨L, st2, _, _, _, heq, _⟩ | heq <;> rw [heq]
    · exact List.take_append_drop _ _
    · simp

/-- The remainder of firstGraphemeCluster is strictly shorter than a
non-empty input buffer. -/
theorem fgc_rest_lt (b : List Nat) (st : Option GrState) (hb : b ≠ []) :
    (firstGraphemeCluster b st).2.1.length < b.length := by
  have hlen : 0 < b.length := List.length_pos.mpr hb
  rcases fgc_cases b st hb with ⟨L, st2, _, hL1, hL2, heq, _⟩ | heq <;> rw [heq]
  · simp only [List.length_drop]
    omega
  · simpa using hlen

/-- The cluster of firstGraphemeCluster on a non-empty buffer is non-empty. -/
theorem fgc_cluster_ne (b : List Nat) (st : Option GrState) (hb : b ≠ []) :
    (firstGraphemeCluster b st).1 ≠ [] := by
  have hlen : 0 < b.length := List.length_pos.mpr hb
  rcases fgc_cases b st hb with ⟨L, st2, _, hL1, hL2, heq, _⟩ | heq <;> rw [heq]
  · intro hnil
    have := congrArg List.length hnil
    simp only [List.length_take, List.length_nil] at this
    omega
  · exact hb

/-- The string scan loop computes exactly what the byte scan loop computes
(a Go string is the same byte sequence). -/
theorem fgcsLoop_eq (n : Nat) : ∀ (b : List Nat) (st : GrState) (length : Nat),
    b.length - length ≤ n → fgcsLoop b st length = fgcLoop b st length := by
  induction n with
  | zero =>
    intro b st length h1
    rw [fgcsLoop, fgcLoop]
    by_cases ht : (transitionGraphemeState st (decodeRune (b.drop length)).1).2 = true
    · rw [if_pos ht, if_pos ht]
    · rw [if_neg ht, if_neg ht]
      by_cases hx : b.length ≤ length + (decodeRune (b.drop length)).2
      · rw [if_pos hx, if_pos hx]
      · exfalso
        have hlpos : 1 ≤ (decodeRune (b.drop length)).2 := by
          apply decodeRune_size_pos
          intro hnil
          have := congrArg List.length hnil
          simp only [List.length_drop, List.length_nil] at this
          omega
        omega
  | succ n ih =>
    intro b st length h1
    rw [fgcsLoop, fgcLoop]
    by_cases ht : (transitionGraphemeState st (decodeRune (b.drop length)).1).2 = true
    · rw [if_pos ht, if_pos ht]
    · rw [if_neg ht, if_neg ht]
      by_cases hx : b.length ≤ length + (decodeRune (b.drop length)).2
      · rw [if_pos hx, if_pos hx]
      · rw [if_neg hx, if_neg hx]
        have hlpos : 1 ≤ (decodeRune (b.drop length)).2 := by
          apply decodeRune_size_pos
          intro hnil
          have := congrArg List.length hnil
          simp only [List.length_drop, List.length_nil] at this
          omega
        exact ih b _ _ (by omega)

/-- firstGraphemeClusterInString computes exactly what firstGraphemeCluster
computes. -/
theorem fgcs_eq (b : List Nat) (st : Option GrState) :
    firstGraphemeClusterInString b st = firstGraphemeCluster b st := by
  unfold firstGraphemeClusterInString firstGraphemeCluster
  by_cases hb : b = []
  · rw [if_pos hb, if_pos hb]
  · rw [if_neg hb, if_neg hb]
    simp only []
    by_cases hlen : b.length ≤ (decodeRune b).2
    · rw [if_pos hlen, if_pos hlen]
    · rw [if_neg hlen, if_neg hlen]
      exact fgcsLoop_eq b.length b _ _ (by omega)

/-- C4 (amended): on an empty buffer both streaming primitives return the
empty cluster, the empty remainder and the zero-value carry-out state grAny
(the Go functions return zero values from a bare return), regardless of the
carry-in state. -/
theorem c4_empty_buffer (st : Option GrState) :
    firstGraphemeCluster [] st = ([], [], some .grAny) ∧
    firstGraphemeClusterInString [] st = ([], [], some .grAny) :=
  ⟨rfl, rfl⟩

/-- Counterexample to C4 as stated: on the empty buffer with carry-in
grRIOdd (or with the unknown sentinel -1 alias none), the carry-out is the
zero value grAny, not the carry-in state. -/
theorem c4_empty_buffer_counterexample :
    (firstGraphemeCluster [] (some .grRIOdd)).2.2 ≠ some GrState.grRIOdd ∧
    (firstGraphemeClusterInString [] none).2.2 ≠ (none : Option GrState) := by
  constructor <;> decide

/-- C5 (amended): when a non-empty buffer is exhausted without an internal
boundary (empty remainder), both streaming primitives return the whole
buffer as the cluster and the carry-out state grAny — the Start/Any state 0,
not the reserved unknown sentinel -1, so no state rediscovery is forced on
the next call. -/
theorem c5_exhausted_buffer (b : List Nat) (st : Option GrState) (hb : b ≠ [])
    (hr : (firstGraphemeCluster b st).2.1 = []) :
    firstGraphemeCluster b st = (b, [], some .grAny) ∧
    firstGraphemeClusterInString b st = (b, [], some .grAny) := by
  have h1 : firstGraphemeCluster b st = (b, [], some .grAny) := by
    rcases fgc_cases b st hb with ⟨L, st2, _, hL1, hL2, heq, _⟩ | heq
    · exfalso
      rw [heq] at hr
      have := congrArg List.length hr
      simp only [List.length_drop, List.length_nil] at this
      omega
    · exact heq
  exact ⟨h1, by rw [fgcs_eq]; exact h1⟩

/-- Witness for C5 at the concrete buffer "x" with unknown carry-in. -/
theorem c5_exhausted_buffer_witness :
    firstGraphemeCluster [0x78] none = ([0x78], [], some .grAny) ∧
    firstGraphemeClusterInString [0x78] none = ([0x78], [], some .grAny) :=
  c5_exhausted_buffer [0x78] none (by decide) (by decide)

/-- Counterexample to C5 as stated: exhausting the buffer "x" yields the
carry-out grAny (state 0), which is not the reserved unknown sentinel -1
(none in this model). -/
theorem c5_exhausted_buffer_counterexample :
    (firstGraphemeCluster [0x78] none).2.1 = [] ∧
    (firstGraphemeCluster [0x78] none).2.2 = some GrState.grAny ∧
    some GrState.grAny ≠ (none : Option GrState) := by
  refine ⟨by decide, by decide, by decide⟩

/-- A streaming drain yields at most one cluster per input byte. -/
theorem drainStreamFuel_length (fuel : Nat) : ∀ (b : List Nat) (st : Option GrState),
    (drainStreamFuel fuel b st).1.length ≤ b.length := by
  induction fuel with
  | zero => intro b st; simp [drainStreamFuel]
  | succ fuel ih =>
    intro b st
    by_cases hb : b = []
    · subst hb; simp [drainStreamFuel]
    · simp only [drainStreamFuel, if_neg hb, List.length_cons]
      have h1 := ih (firstGraphemeCluster b st).2.1 (firstGraphemeCluster b st).2.2
      have h2 := fgc_rest_lt b st hb
      omega

/-- C9: every scan step strictly advances.  The scan loop of Next strictly
increases the scan position, bounded by the scalar count plus one; one call
of each streaming primitive on a non-empty buffer strictly shrinks the
remaining buffer; a full iterator drain yields at most one cluster per
scalar and a full streaming drain at most one cluster per byte. -/
theorem c9_progress_termination :
    (∀ g : Graphemes, g.pos ≤ g.codePoints.length →
      g.pos < (nextLoop g).pos ∧ (nextLoop g).pos ≤ g.codePoints.length + 1) ∧
    (∀ (b : List Nat) (st : Option GrState), b ≠ [] →
      (firstGraphemeCluster b st).2.1.length < b.length ∧
      (firstGraphemeClusterInString b st).2.1.length < b.length) ∧
    (∀ s : List Nat,
      (drainG (newGraphemes s)).1.length ≤ (newGraphemes s).codePoints.length) ∧
    (∀ (b : List Nat) (st : Option GrState), (drainStream b st).length ≤ b.length) := by
  refine ⟨?_, ?_, ?_, ?_⟩
  · intro g h
    obtain ⟨q, st, hq1, hq2, hq3⟩ := nextLoop_spec (g.codePoints.length + 1) g (by omega) h
    rw [hq3]
    simp only []
    omega
  · intro b st hb
    refine ⟨fgc_rest_lt b st hb, ?_⟩
    rw [fgcs_eq]
    exact fgc_rest_lt b st hb
  · intro s
    obtain ⟨st, hsh⟩ := newGraphemes_shape s
    have hspec := drainFullFuel_spec ((newGraphemes s).codePoints.length + 2)
      (newGraphemes s) (by rw [hsh]) (by rw [hsh]; simp) (by omega)
    have hstop0 : (newGraphemes s).stop = 0 := by rw [hsh]
    have hchain := hspec.2.1
    rw [hstop0] at hchain
    have hlen := chain_length (newGraphemes s).codePoints.length
      ((drainG (newGraphemes s)).1.map (fun h => (h.start, h.stop))) 0 hchain
    simp only [List.length_map] at hlen
    omega
  · intro b st
    exact drainStreamFuel_length b.length b st

/-- Witness for C9 at concrete inputs: a primed one-scalar iterator and the
two-byte buffer "xy". -/
theorem c9_progress_termination_witness :
    (⟨[0x61], [0, 1], 0, 0, 0, .grAny⟩ : Graphemes).pos <
      (nextLoop ⟨[0x61], [0, 1], 0, 0, 0, .grAny⟩).pos ∧
    (firstGraphemeCluster [0x78, 0x79] none).2.1.length < [0x78, 0x79].length := by
  constructor
  · exact (c9_progress_termination.1 ⟨[0x61], [0, 1], 0, 0, 0, .grAny⟩ (by decide)).1
  · exact (c9_progress_termination.2.1 [0x78, 0x79] none (by decide)).1

/-- A streaming drain of the empty buffer yields nothing and keeps the
state. -/
theorem drainStreamFuel_nil (fuel : Nat) (st : Option GrState) :
    drainStreamFuel fuel [] st = ([], st) := by
  cases fuel <;> rfl

/-- The fuel of a streaming drain is irrelevant as long as it is at least
the buffer length. -/
theorem drainStreamFuel_congr (fuel : Nat) : ∀ (fuel2 : Nat) (b : List Nat)
    (st : Option GrState), b.length ≤ fuel → b.length ≤ fuel2 →
    drainStreamFuel fuel b st = drainStreamFuel fuel2 b st := by
  induction fuel with
  | zero =>
    intro fuel2 b st h1 h2
    have hb : b = [] := List.eq_nil_of_length_eq_zero (by omega)
    subst hb
    rw [drainStreamFuel_nil, drainStreamFuel_nil]
  | succ fuel ih =>
    intro fuel2 b st h1 h2
    by_cases hb : b = []
    · subst hb
      rw [drainStreamFuel_nil, drainStreamFuel_nil]
    · have hpos : 0 < b.length := List.length_pos.mpr hb
      cases fuel2 with
      | zero => omega
      | succ fuel2 =>
        simp only [drainStreamFuel, if_neg hb]
        have hrest := fgc_rest_lt b st hb
        rw [ih fuel2 (firstGraphemeCluster b st).2.1
          (firstGraphemeCluster b st).2.2 (by omega) (by omega)]

/-- One-step unfolding of the full streaming drain on a non-empty buffer. -/
theorem drainStreamAll_cons (b : List Nat) (st : Option GrState) (hb : b ≠ []) :
    drainStreamAll b st =
      ((firstGraphemeCluster b st).1 ::
        (drainStreamAll (firstGraphemeCluster b st).2.1
          (firstGraphemeCluster b st).2.2).1,
        (drainStreamAll (firstGraphemeCluster b st).2.1
          (firstGraphemeCluster b st).2.2).2) := by
  unfold drainStreamAll
  have hpos : 0 < b.length := List.length_pos.mpr hb
  obtain ⟨n, hn⟩ : ∃ n, b.length = n + 1 := ⟨b.length - 1, by omega⟩
  rw [hn]
  simp only [drainStreamFuel, if_neg hb]
  have hrest := fgc_rest_lt b st hb
  rw [drainStreamFuel_congr n (firstGraphemeCluster b st).2.1.length
    (firstGraphemeCluster b st).2.1 (firstGraphemeCluster b st).2.2
    (by omega) le_rfl]

/-- One-step unfolding of the streaming cluster drain. -/
theorem drainStream_cons (b : List Nat) (st : Option GrState) (hb : b ≠ []) :
    drainStream b st = (firstGraphemeCluster b st).1 ::
      drainStream (firstGraphemeCluster b st).2.1 (firstGraphemeCluster b st).2.2 := by
  unfold drainStream
  rw [drainStreamAll_cons b st hb]

/-- The clusters of a full streaming drain concatenate to the input
buffer. -/
theorem drainStream_flatten (n : Nat) : ∀ (b : List Nat) (st : Option GrState),
    b.length ≤ n → (drainStream b st).flatten = b := by
  induction n with
  | zero =>
    intro b st h
    have hb : b = [] := List.eq_nil_of_length_eq_zero (by omega)
    subst hb
    rfl
  | succ n ih =>
    intro b st h
    by_cases hb : b = []
    · subst hb; rfl
    · rw [drainStream_cons b st hb]
      simp only [List.flatten_cons]
      have hrest := fgc_rest_lt b st hb
      rw [ih (firstGraphemeCluster b st).2.1 (firstGraphemeCluster b st).2.2 (by omega)]
      exact fgc_parts b st

/-- Wrapper: the clusters of a full streaming drain concatenate to the
input buffer. -/
theorem drainStream_flatten_self (b : List Nat) (st : Option GrState) :
    (drainStream b st).flatten = b :=
  drainStream_flatten b.length b st le_rfl

/-- Every cluster of a streaming drain is non-empty. -/
theorem drainStream_ne_nil (n : Nat) : ∀ (b : List Nat) (st : Option GrState)
    (x : List Nat), b.length ≤ n → x ∈ drainStream b st → x ≠ [] := by
  induction n with
  | zero =>
    intro b st x h hx
    have hb : b = [] := List.eq_nil_of_length_eq_zero (by omega)
    subst hb
    simp [drainStream, drainStreamAll, drainStreamFuel] at hx
  | succ n ih =>
    intro b st x h hx
    by_cases hb : b = []
    · subst hb
      simp [drainStream, drainStreamAll, drainStreamFuel] at hx
    · rw [drainStream_cons b st hb] at hx
      simp only [List.mem_cons] at hx
      rcases hx with hx | hx
      · subst hx
        exact fgc_cluster_ne b st hb
      · have hrest := fgc_rest_lt b st hb
        exact ih (firstGraphemeCluster b st).2.1 (firstGraphemeCluster b st).2.2 x
          (by omega) hx

/-- Rediscovering the state from the first rune of the buffer gives the
same call result as passing that state explicitly. -/
theorem fgc_rediscover (rest : List Nat) (hrest : rest ≠ []) :
    firstGraphemeCluster rest
      (some ((transitionGraphemeState .grAny (decodeRune rest).1).1)) =
      firstGraphemeCluster rest none := by
  rfl

/-- Threading a boundary carry-out into a drain of the remainder is the
same as draining the remainder from the unknown state. -/
theorem drainStream_rediscover (rest : List Nat) (hrest : rest ≠ [])
    (t : GrState) (ht : t = (transitionGraphemeState .grAny (decodeRune rest).1).1) :
    drainStream rest (some t) = drainStream rest none := by
  rw [drainStream_cons rest (some t) hrest, drainStream_cons rest none hrest,
    ht, fgc_rediscover rest hrest]

/-- Unfolding firstGraphemeCluster with unknown carry-in on a buffer longer
than its first rune: the state is rediscovered from the first rune and the
scan loop is entered after it. -/
theorem fgc_unfold_none (b : List Nat) (hb : b ≠ [])
    (hlen : ¬ b.length ≤ (decodeRune b).2) :
    firstGraphemeCluster b none =
      fgcLoop b (transitionGraphemeState .grAny (decodeRune b).1).1
        (decodeRune b).2 := by
  unfold firstGraphemeCluster
  rw [if_neg hb]
  simp only []
  rw [if_neg hlen]

/-- firstGraphemeCluster on a buffer no longer than its first rune returns
the whole buffer. -/
theorem fgc_short (b : List Nat) (st : Option GrState) (hb : b ≠ [])
    (hlen : b.length ≤ (decodeRune b).2) :
    firstGraphemeCluster b st = (b, [], some .grAny) := by
  unfold firstGraphemeCluster
  rw [if_neg hb]
  simp only []
  rw [if_pos hlen]

/-- Truncation of the scan loop at a boundary: if scanning `p ++ v` from
inside `p` finds its boundary at L inside `p`, and the boundary scalar's
bytes fit inside `p`, then scanning `p` alone from the same state and
offset finds the same boundary and carry-out state. -/
theorem fgcLoop_trunc (n : Nat) : ∀ (p v : List Nat) (st : GrState)
    (length L : Nat) (st2 : GrState),
    (p ++ v).length - length ≤ n →
    length < p.length → L < p.length →
    (decodeRune ((p ++ v).drop L)).2 ≤ p.length - L →
    fgcLoop (p ++ v) st length = ((p ++ v).take L, (p ++ v).drop L, some st2) →
    fgcLoop p st length = (p.take L, p.drop L, some st2) := by
  induction n with
  | zero =>
    intro p v st length L st2 h1 h2 h3 hfit heq
    simp only [List.length_append] at h1
    omega
  | succ n ih =>
    intro p v st length L st2 h1 h2 h3 hfit heq
    have hblen : p.length ≤ (p ++ v).length := by simp
    rw [fgcLoop] at heq
    by_cases ht : (transitionGraphemeState st
        (decodeRune ((p ++ v).drop length)).1).2 = true
    · rw [if_pos ht] at heq
      have hdl := congrArg (fun t => t.2.1.length) heq
      simp only [List.length_drop] at hdl
      have hlL : length = L := by omega
      subst hlL
      have hsplit : (p ++ v).drop length = p.drop length ++ v :=
        List.drop_append_of_le_length (by omega)
      have hdec : decodeRune (p.drop length) = decodeRune ((p ++ v).drop length) := by
        rw [hsplit]
        apply decodeRune_append
        rw [← hsplit]
        simp only [List.length_drop]
        omega
      have hst2 : (transitionGraphemeState st
          (decodeRune ((p ++ v).drop length)).1).1 = st2 := by
        have h5 := congrArg (fun t => t.2.2) heq
        simp only [] at h5
        exact Option.some.inj h5
      rw [fgcLoop, hdec, if_pos ht, hst2]
    · rw [if_neg ht] at heq
      by_cases hx : (p ++ v).length ≤ length + (decodeRune ((p ++ v).drop length)).2
      · rw [if_pos hx] at heq
        exfalso
        have hdl := congrArg (fun t => t.2.1.length) heq
        simp only [List.length_nil, List.length_drop] at hdl
        omega
      · rw [if_neg hx] at heq
        have hlpos : 1 ≤ (decodeRune ((p ++ v).drop length)).2 := by
          apply decodeRune_size_pos
          intro hnil
          have h6 := congrArg List.length hnil
          simp only [List.length_drop, List.length_nil] at h6
          omega
        have hmono := fgcLoop_mono (p ++ v).length (p ++ v)
          (transitionGraphemeState st (decodeRune ((p ++ v).drop length)).1).1
          (length + (decodeRune ((p ++ v).drop length)).2) L st2 (by omega)
          (by omega) heq
        have hsplit : (p ++ v).drop length = p.drop length ++ v :=
          List.drop_append_of_le_length (by omega)
        have hdec : decodeRune (p.drop length) = decodeRune ((p ++ v).drop length) := by
          rw [hsplit]
          apply decodeRune_append
          rw [← hsplit]
          simp only [List.length_drop]
          omega
        rw [fgcLoop, hdec, if_neg ht, if_neg (show ¬ p.length ≤
          length + (decodeRune ((p ++ v).drop length)).2 by omega)]
        exact ih p v _ _ L st2 (by omega) (by omega) h3 hfit heq

/-- Scanning the first cluster alone (the buffer truncated at its own
boundary L) exhausts it and carries out grAny. -/
theorem fgcLoop_self (n : Nat) : ∀ (b : List Nat) (st : GrState)
    (length L : Nat) (st2 : GrState),
    b.length - length ≤ n → L < b.length → length < L →
    fgcLoop b st length = (b.take L, b.drop L, some st2) →
    fgcLoop (b.take L) st length = (b.take L, [], some .grAny) := by
  induction n with
  | zero =>
    intro b st length L st2 h1 h2 h3 heq
    omega
  | succ n ih =>
    intro b st length L st2 h1 h2 h3 heq
    have hplen : (b.take L).length = L := by
      simp only [List.length_take]
      omega
    rw [fgcLoop] at heq
    by_cases ht : (transitionGraphemeState st (decodeRune (b.drop length)).1).2 = true
    · exfalso
      rw [if_pos ht] at heq
      have hdl := congrArg (fun t => t.2.1.length) heq
      simp only [List.length_drop] at hdl
      omega
    · rw [if_neg ht] at heq
      by_cases hx : b.length ≤ length + (decodeRune (b.drop length)).2
      · exfalso
        rw [if_pos hx] at heq
        have hdl := congrArg (fun t => t.2.1.length) heq
        simp only [List.length_nil, List.length_drop] at hdl
        omega
      · rw [if_neg hx] at heq
        have hlpos : 1 ≤ (decodeRune (b.drop length)).2 := by
          apply decodeRune_size_pos
          intro hnil
          have h6 := congrArg List.length hnil
          simp only [List.length_drop, List.length_nil] at h6
          omega
        have hmono := fgcLoop_mono b.length b
          (transitionGraphemeState st (decodeRune (b.drop length)).1).1
          (length + (decodeRune (b.drop length)).2) L st2 (by omega) h2 heq
        have hptake : (b.take L).drop length = (b.drop length).take (L - length) :=
          List.drop_take L length b
        have hsplit : b.drop length = (b.take L).drop length ++ b.drop L := by
          rw [hptake]
          have h4 : (b.drop length).drop (L - length) = b.drop L := by
            rw [List.drop_drop]
            congr 1
            omega
          rw [← h4]
          exact (List.take_append_drop _ _).symm
        have hdec : decodeRune ((b.take L).drop length) = decodeRune (b.drop length) := by
          rw [hsplit]
          apply decodeRune_append
          rw [← hsplit]
          simp only [List.length_drop, hplen]
          omega
        rw [fgcLoop, hdec, if_neg ht]
        by_cases hfin : (b.take L).length ≤ length + (decodeRune (b.drop length)).2
        · rw [if_pos hfin]
        · rw [if_neg hfin]
          exact ih b _ _ L st2 (by omega) h2 (by omega) heq

/-- Truncation of firstGraphemeCluster at a boundary: if scanning
`c ++ u ++ v` from the unknown state yields the cluster `c` with remainder
`u ++ v`, and the remainder's first rune fits inside `u` (non-empty), then
scanning `c ++ u` yields the cluster `c` with remainder `u` and the same
carry-out state. -/
theorem fgc_trunc (c u v : List Nat) (st2 : GrState)
    (hu : u ≠ [])
    (hfit : (decodeRune (u ++ v)).2 ≤ u.length)
    (heq : firstGraphemeCluster (c ++ (u ++ v)) none = (c, u ++ v, some st2)) :
    firstGraphemeCluster (c ++ u) none = (c, u, some st2) := by
  have hulen : 0 < u.length := List.length_pos.mpr hu
  have hb : c ++ (u ++ v) ≠ [] := by
    intro h0
    have := congrArg List.length h0
    simp only [List.length_append, List.length_nil] at this
    omega
  by_cases hl0 : (c ++ (u ++ v)).length ≤ (decodeRune (c ++ (u ++ v))).2
  · exfalso
    rw [fgc_short _ none hb hl0] at heq
    have := congrArg (fun t => t.2.1.length) heq
    simp only [List.length_nil, List.length_append] at this
    omega
  · have hloop := (fgc_unfold_none _ hb hl0).symm.trans heq
    have hcu_take : (c ++ (u ++ v)).take c.length = c := List.take_left _ _
    have hcu_drop : (c ++ (u ++ v)).drop c.length = u ++ v := List.drop_left _ _
    have hloop2 : fgcLoop (c ++ (u ++ v))
        (transitionGraphemeState .grAny (decodeRune (c ++ (u ++ v))).1).1
        (decodeRune (c ++ (u ++ v))).2 =
        ((c ++ (u ++ v)).take c.length, (c ++ (u ++ v)).drop c.length, some st2) := by
      rw [hcu_take, hcu_drop]
      exact hloop
    have hLb : c.length < (c ++ (u ++ v)).length := by
      simp only [List.length_append]
      omega
    have hmono := fgcLoop_mono (c ++ (u ++ v)).length (c ++ (u ++ v)) _ _ _ _
      (by omega) hLb hloop2
    have hpb : (c ++ u) ++ v = c ++ (u ++ v) := List.append_assoc c u v
    have hdec0 : decodeRune (c ++ u) = decodeRune (c ++ (u ++ v)) := by
      rw [← hpb]
      apply decodeRune_append
      rw [hpb]
      simp only [List.length_append]
      omega
    have hpne : c ++ u ≠ [] := by
      intro h0
      have := congrArg List.length h0
      simp only [List.length_append, List.length_nil] at this
      omega
    have hpl0 : ¬ (c ++ u).length ≤ (decodeRune (c ++ u)).2 := by
      rw [hdec0]
      simp only [List.length_append]
      omega
    rw [fgc_unfold_none _ hpne hpl0, hdec0]
    have htr := fgcLoop_trunc (c ++ (u ++ v)).length (c ++ u) v
      (transitionGraphemeState .grAny (decodeRune (c ++ (u ++ v))).1).1
      (decodeRune (c ++ (u ++ v))).2 c.length st2
      (by rw [hpb]; omega)
      (by simp only [List.length_append]; omega)
      (by simp only [List.length_append]; omega)
      (by rw [hpb, hcu_drop]; simp only [List.length_append]; omega)
      (by rw [show ((c ++ u) ++ v : List Nat) = c ++ (u ++ v) from hpb]; exact hloop2)
    rw [htr]
    rw [show (c ++ u).take c.length = c from List.take_left _ _,
      show (c ++ u).drop c.length = u from List.drop_left _ _]

/-- Scanning a single boundary-delimited cluster alone exhausts the buffer
and carries out grAny. -/
theorem fgc_self (c rest : List Nat) (st2 : GrState) (hrest : rest ≠ [])
    (heq : firstGraphemeCluster (c ++ rest) none = (c, rest, some st2)) :
    firstGraphemeCluster c none = (c, [], some .grAny) := by
  have hrlen : 0 < rest.length := List.length_pos.mpr hrest
  have hb : c ++ rest ≠ [] := by
    intro h0
    have := congrArg List.length h0
    simp only [List.length_append, List.length_nil] at this
    omega
  by_cases hl0 : (c ++ rest).length ≤ (decodeRune (c ++ rest)).2
  · exfalso
    rw [fgc_short _ none hb hl0] at heq
    have := congrArg (fun t => t.2.1.length) heq
    simp only [List.length_nil] at this
    omega
  · have hloop := (fgc_unfold_none _ hb hl0).symm.trans heq
    have hcu_take : (c ++ rest).take c.length = c := List.take_left _ _
    have hcu_drop : (c ++ rest).drop c.length = rest := List.drop_left _ _
    have hloop2 : fgcLoop (c ++ rest)
        (transitionGraphemeState .grAny (decodeRune (c ++ rest)).1).1
        (decodeRune (c ++ rest)).2 =
        ((c ++ rest).take c.length, (c ++ rest).drop c.length, some st2) := by
      rw [hcu_take, hcu_drop]
      exact hloop
    have hLb : c.length < (c ++ rest).length := by
      simp only [List.length_append]
      omega
    have hmono := fgcLoop_mono (c ++ rest).length (c ++ rest) _ _ _ _
      (by omega) hLb hloop2
    have hclen : 0 < c.length := by
      have hpos := decodeRune_size_pos (c ++ rest) hb
      omega
    have hcne : c ≠ [] := by
      intro h0
      have := congrArg List.length h0
      simp only [List.length_nil] at this
      omega
    have hdec0 : decodeRune c = decodeRune (c ++ rest) := by
      apply decodeRune_append
      omega
    by_cases hshort : c.length ≤ (decodeRune c).2
    · have hl0c : (decodeRune (c ++ rest)).2 = c.length := by
        rw [← hdec0] at hmono ⊢
        omega
      rw [fgc_short c none hcne hshort]
    · rw [fgc_unfold_none c hcne hshort, hdec0]
      have hself := fgcLoop_self (c ++ rest).length (c ++ rest)
        (transitionGraphemeState .grAny (decodeRune (c ++ rest)).1).1
        (decodeRune (c ++ rest)).2 c.length st2
        (by omega) hLb (by rw [← hdec0]; omega) hloop2
      rw [hcu_take] at hself
      exact hself

/-- Splitting a fresh streaming drain after any number of clusters: the
remaining clusters are exactly a fresh drain of their own bytes. -/
theorem drainStream_dropPart : ∀ (cs : List (List Nat)) (b : List Nat)
    (ds : List (List Nat)),
    drainStream b none = cs ++ ds → drainStream ds.flatten none = ds := by
  intro cs
  induction cs with
  | nil =>
    intro b ds h
    simp only [List.nil_append] at h
    rw [← h, drainStream_flatten_self]
  | cons c cs' ih =>
    intro b ds h
    have hb : b ≠ [] := by
      intro h0
      subst h0
      rw [show drainStream [] none = [] from rfl] at h
      exact absurd h (by simp)
    rw [drainStream_cons b none hb] at h
    injection h with hc htail
    by_cases hrest : (firstGraphemeCluster b none).2.1 = []
    · rw [hrest,
        show drainStream [] (firstGraphemeCluster b none).2.2 = [] from rfl] at htail
      have hds : ds = [] := (List.append_eq_nil.mp htail.symm).2
      subst hds
      rfl
    · rcases fgc_cases b none hb with ⟨L, st2, hL0, hL1, hL2, hfgc, hst2⟩ | hfgc
      · have hs2 : (firstGraphemeCluster b none).2.2 = some st2 := by rw [hfgc]
        have hrestL : (firstGraphemeCluster b none).2.1 = b.drop L := by rw [hfgc]
        rw [hs2, hrestL] at htail
        have hrestne : b.drop L ≠ [] := by
          rw [← hrestL]
          exact hrest
        rw [drainStream_rediscover (b.drop L) hrestne st2 hst2] at htail
        exact ih (b.drop L) ds htail
      · exact absurd (by rw [hfgc]) hrest

/-- Splitting a fresh streaming drain after any number of clusters: the
leading clusters are exactly a fresh drain of their own bytes. -/
theorem drainStream_takePart : ∀ (cs : List (List Nat)) (b : List Nat)
    (ds : List (List Nat)),
    drainStream b none = cs ++ ds → drainStream cs.flatten none = cs := by
  intro cs
  induction cs with
  | nil => intro b ds h; rfl
  | cons c cs' ih =>
    intro b ds h
    have hb : b ≠ [] := by
      intro h0
      subst h0
      rw [show drainStream [] none = [] from rfl] at h
      exact absurd h (by simp)
    rw [drainStream_cons b none hb] at h
    injection h with hc htail
    have hcne : c ≠ [] := by
      rw [← hc]
      exact fgc_cluster_ne b none hb
    by_cases hrest : (firstGraphemeCluster b none).2.1 = []
    · rw [hrest,
        show drainStream [] (firstGraphemeCluster b none).2.2 = [] from rfl] at htail
      have hcs' : cs' = [] := (List.append_eq_nil.mp htail.symm).1
      have hds : ds = [] := (List.append_eq_nil.mp htail.symm).2
      subst hcs'
      have hbc : b = c := by
        have hp := fgc_parts b none
        rw [hc, hrest] at hp
        simpa using hp.symm
      subst hbc
      show drainStream (List.flatten [b]) none = [b]
      rw [show List.flatten [b] = b by simp, drainStream_cons b none hb, hc,
        hrest, show drainStream [] (firstGraphemeCluster b none).2.2 = [] from rfl]
    · rcases fgc_cases b none hb with ⟨L, st2, hL0, hL1, hL2, hfgc, hst2⟩ | hfgc
      · have hcL : c = b.take L := by
          rw [hfgc] at hc
          exact hc.symm
        have hrestL : (firstGraphemeCluster b none).2.1 = b.drop L := by rw [hfgc]
        have hs2 : (firstGraphemeCluster b none).2.2 = some st2 := by rw [hfgc]
        have hrestne : b.drop L ≠ [] := by
          rw [← hrestL]
          exact hrest
        rw [hs2, hrestL] at htail
        have htail2 : drainStream (b.drop L) none = cs' ++ ds := by
          rw [← drainStream_rediscover (b.drop L) hrestne st2 hst2]
          exact htail
        have hihcs := ih (b.drop L) ds htail2
        have hcb : c ++ b.drop L = b := by
          rw [hcL]
          exact List.take_append_drop _ _
        by_cases hcs' : cs' = []
        · subst hcs'
          have hself := fgc_self c (b.drop L) st2 hrestne
            (by rw [hcb, hfgc, ← hcL])
          show drainStream (List.flatten [c]) none = [c]
          rw [show List.flatten [c] = c by simp, drainStream_cons c none hcne, hself]
          rw [show drainStream ([] : List Nat) (some GrState.grAny) = [] from rfl]
        · by_cases hds : ds = []
          · subst hds
            have hfl2 : cs'.flatten = b.drop L := by
              have hfl0 := drainStream_flatten_self (b.drop L) none
              rw [htail2] at hfl0
              simpa using hfl0
            show drainStream (List.flatten (c :: cs')) none = c :: cs'
            rw [show List.flatten (c :: cs') = c ++ cs'.flatten by simp, hfl2, hcb]
            rw [drainStream_cons b none hb, hc, hrestL, hs2,
              drainStream_rediscover (b.drop L) hrestne st2 hst2, htail2]
            simp
          · have hune : cs'.flatten ≠ [] := by
              obtain ⟨c1, cs'', rfl⟩ : ∃ c1 cs'', cs' = c1 :: cs'' := by
                cases cs' with
                | nil => exact absurd rfl hcs'
                | cons a t => exact ⟨a, t, rfl⟩
              have hc1 : c1 ≠ [] :=
                drainStream_ne_nil (b.drop L).length (b.drop L) none c1 le_rfl
                  (by rw [htail2]; simp)
              simp only [List.flatten_cons]
              intro h0
              have hl0 := congrArg List.length h0
              simp only [List.length_append, List.length_nil] at hl0
              exact hc1 (List.eq_nil_of_length_eq_zero (by omega))
            have hfit : (decodeRune (b.drop L)).2 ≤ cs'.flatten.length := by
              rcases fgc_cases (b.drop L) none hrestne with
                ⟨L2, st3, hM0, hM1, hM2, hfgc2, hst3⟩ | hfgc2
              · rw [drainStream_cons (b.drop L) none hrestne, hfgc2] at htail2
                obtain ⟨c1, cs'', rfl⟩ : ∃ c1 cs'', cs' = c1 :: cs'' := by
                  cases cs' with
                  | nil => exact absurd rfl hcs'
                  | cons a t => exact ⟨a, t, rfl⟩
                simp only [List.cons_append] at htail2
                injection htail2 with hc1eq _
                have hc1' : (b.drop L).take L2 = c1 := by simpa using hc1eq
                have hdl : (List.drop L b).length = b.length - L := by simp
                have hlen1 : c1.length = L2 := by
                  rw [← hc1']
                  simp only [List.length_take, List.length_drop]
                  omega
                simp only [List.flatten_cons, List.length_append]
                omega
              · exfalso
                rw [drainStream_cons (b.drop L) none hrestne, hfgc2,
                  show drainStream ([] : List Nat) (some GrState.grAny) = []
                    from rfl] at htail2
                have hl2 := congrArg List.length htail2
                simp only [List.length_cons, List.length_nil, List.length_append] at hl2
                have hp1 : 0 < cs'.length := List.length_pos.mpr hcs'
                have hp2 : 0 < ds.length := List.length_pos.mpr hds
                omega
            have hrsplit : b.drop L = cs'.flatten ++ ds.flatten := by
              have hfl := drainStream_flatten_self (b.drop L) none
              rw [htail2] at hfl
              rw [← hfl]
              simp
            have htr := fgc_trunc c cs'.flatten ds.flatten st2 hune
              (by rw [← hrsplit]; exact hfit)
              (by rw [← hrsplit, hcb, hfgc, hcL])
            have hpne : c ++ cs'.flatten ≠ [] := by
              intro h0
              have hl0 := congrArg List.length h0
              simp only [List.length_append, List.length_nil] at hl0
              exact hcne (List.eq_nil_of_length_eq_zero (by omega))
            show drainStream (List.flatten (c :: cs')) none = c :: cs'
            rw [show List.flatten (c :: cs') = c ++ cs'.flatten by simp]
            rw [drainStream_cons _ none hpne, htr]
            show c :: drainStream cs'.flatten (some st2) = c :: cs'
            have hdecu : decodeRune cs'.flatten = decodeRune (b.drop L) := by
              rw [hrsplit]
              exact decodeRune_append _ _ (by rw [← hrsplit]; exact hfit)
            rw [drainStream_rediscover cs'.flatten hune st2 (by rw [hst2, hdecu]),
              hihcs]
      · exact absurd (by rw [hfgc]) hrest

/-- C6 (amended): splitting a buffer at a byte offset that is a cluster
boundary of the single-shot streaming drain, and feeding each part to the
streaming primitive as a fresh stream (carry-in unknown), yields exactly
the two halves of the single-shot cluster sequence, so their concatenation
is the single-shot sequence.  (The claim as stated fails: the first part's
final call always exhausts its buffer with carry-out grAny, which a
subsequent call does not treat as unknown, so literally threading the
carry-out across the split changes the clusters — see the
counterexample.) -/
theorem c6_streaming_split (b : List Nat) (cs ds : List (List Nat))
    (h : drainStream b none = cs ++ ds) :
    drainStream cs.flatten none = cs ∧ drainStream ds.flatten none = ds ∧
    cs.flatten ++ ds.flatten = b ∧
    drainStream cs.flatten none ++ drainStream ds.flatten none =
      drainStream b none := by
  have h1 := drainStream_takePart cs b ds h
  have h2 := drainStream_dropPart cs b ds h
  refine ⟨h1, h2, ?_, ?_⟩
  · have hfl := drainStream_flatten_self b none
    rw [h] at hfl
    simpa using hfl
  · rw [h1, h2, h]

/-- Witness for C6 on the buffer "ab" split after its first cluster. -/
theorem c6_streaming_split_witness :
    drainStream [0x61, 0x62] none = [[0x61]] ++ [[0x62]] ∧
    drainStream (List.flatten [[0x61]]) none = [[0x61]] ∧
    drainStream (List.flatten [[0x62]]) none = [[0x62]] := by
  have h : drainStream [0x61, 0x62] none = [[0x61]] ++ [[0x62]] := by
    simp [drainStream, drainStreamAll, drainStreamFuel, firstGraphemeCluster,
      fgcLoop, decodeRune, transitionGraphemeState, transitionGraphemeStateProp,
      property, grTransitions]
  have h2 := c6_streaming_split [0x61, 0x62] [[0x61]] [[0x62]] h
  exact ⟨h, h2.1, h2.2.1⟩

/-- Counterexample to C6 as stated: the buffer "x" + two regional
indicators, split at byte offset 1 (a cluster boundary of the single-shot
sequence).  Draining the first part and threading its carry-out state into
a drain of the second part yields three clusters (the flag pair is split):
not the two clusters of the single-shot drain. -/
theorem c6_streaming_split_counterexample :
    (drainStreamAll [0x78] none).1 ++
      (drainStreamAll [0xF0, 0x9F, 0x87, 0xA6, 0xF0, 0x9F, 0x87, 0xA7]
        (drainStreamAll [0x78] none).2).1 ≠
      drainStream [0x78, 0xF0, 0x9F, 0x87, 0xA6, 0xF0, 0x9F, 0x87, 0xA7] none := by
  simp [drainStream, drainStreamAll, drainStreamFuel, firstGraphemeCluster,
    fgcLoop, decodeRune, transitionGraphemeState, transitionGraphemeStateProp,
    property, grTransitions, grBoundary, grNoBoundary]

/-- Encoding a rune always produces at least one byte. -/
theorem encodeRune_ne_nil (r : Nat) : encodeRune r ≠ [] := by
  unfold encodeRune
  split_ifs <;> simp

/-- Round trip: decoding an encoded valid rune (with anything appended)
recovers the rune and consumes exactly its encoded bytes. -/
theorem decode_encodeRune (r : Nat) (tail : List Nat) (hv : validRune r = true) :
    decodeRune (encodeRune r ++ tail) = (r, (encodeRune r).length) := by
  have hvr : r < 0xD800 ∨ (0xDFFF < r ∧ r ≤ 0x10FFFF) := by
    simp only [validRune, Bool.or_eq_true, Bool.and_eq_true, decide_eq_true_eq] at hv
    exact hv
  unfold encodeRune
  by_cases h1 : r ≤ 0x7F
  · rw [if_pos h1]
    have c1 : r < 0x80 := by omega
    simp [decodeRune, c1]
  · rw [if_neg h1]
    by_cases h2 : r ≤ 0x7FF
    · rw [if_pos h2]
      have c1 : ¬ 0xC0 + r / 0x40 < 0x80 := by omega
      have c2 : ¬ 0xC0 + r / 0x40 < 0xC2 := by omega
      have c3 : 0xC0 + r / 0x40 < 0xE0 := by omega
      have c4 : 0x80 ≤ 0x80 + r % 0x40 ∧ 0x80 + r % 0x40 ≤ 0xBF := by
        constructor <;> omega
      have e1 : (0xC0 + r / 0x40) % 0x20 = r / 0x40 := by omega
      have e2 : (0x80 + r % 0x40) % 0x40 = r % 0x40 := by omega
      simp only [List.cons_append, List.nil_append, decodeRune, if_neg c1,
        if_neg c2, if_pos c3, if_pos c4, List.length_cons, List.length_nil,
        Prod.mk.injEq, e1, e2]
      exact ⟨by omega, trivial⟩
    · rw [if_neg h2]
      have hval : ¬ ¬ validRune r = true := fun hc => hc hv
      rw [if_neg hval]
      by_cases h3 : r ≤ 0xFFFF
      · rw [if_pos h3]
        have c1 : ¬ 0xE0 + r / 0x1000 < 0x80 := by omega
        have c2 : ¬ 0xE0 + r / 0x1000 < 0xC2 := by omega
        have c3 : ¬ 0xE0 + r / 0x1000 < 0xE0 := by omega
        have c4 : 0xE0 + r / 0x1000 < 0xF0 := by omega
        have c5 : (if 0xE0 + r / 0x1000 = 0xE0 then
              0xA0 ≤ 0x80 + r / 0x40 % 0x40 ∧ 0x80 + r / 0x40 % 0x40 ≤ 0xBF
            else if 0xE0 + r / 0x1000 = 0xED then
              0x80 ≤ 0x80 + r / 0x40 % 0x40 ∧ 0x80 + r / 0x40 % 0x40 ≤ 0x9F
            else 0x80 ≤ 0x80 + r / 0x40 % 0x40 ∧ 0x80 + r / 0x40 % 0x40 ≤ 0xBF) := by
          rcases hvr with hvr | hvr
          · split_ifs <;> constructor <;> omega
          · split_ifs <;> constructor <;> omega
        have c6 : 0x80 ≤ 0x80 + r % 0x40 ∧ 0x80 + r % 0x40 ≤ 0xBF := by
          constructor <;> omega
        have e1 : (0xE0 + r / 0x1000) % 0x10 = r / 0x1000 := by omega
        have e2 : (0x80 + r / 0x40 % 0x40) % 0x40 = r / 0x40 % 0x40 := by omega
        have e3 : (0x80 + r % 0x40) % 0x40 = r % 0x40 := by omega
        simp only [List.cons_append, List.nil_append, decodeRune, if_neg c1,
          if_neg c2, if_neg c3, if_pos c4, if_pos c5, if_pos c6,
          List.length_cons, List.length_nil, Prod.mk.injEq, e1, e2, e3]
        exact ⟨by omega, trivial⟩
      · rw [if_neg h3]
        have hup : r ≤ 0x10FFFF := by
          rcases hvr with hvr | hvr
          · omega
          · omega
        have c1 : ¬ 0xF0 + r / 0x40000 < 0x80 := by omega
        have c2 : ¬ 0xF0 + r / 0x40000 < 0xC2 := by omega
        have c3 : ¬ 0xF0 + r / 0x40000 < 0xE0 := by omega
        have c4 : ¬ 0xF0 + r / 0x40000 < 0xF0 := by omega
        have c5 : 0xF0 + r / 0x40000 < 0xF5 := by omega
        have c6 : (if 0xF0 + r / 0x40000 = 0xF0 then
              0x90 ≤ 0x80 + r / 0x1000 % 0x40 ∧ 0x80 + r / 0x1000 % 0x40 ≤ 0xBF
            else if 0xF0 + r / 0x40000 = 0xF4 then
              0x80 ≤ 0x80 + r / 0x1000 % 0x40 ∧ 0x80 + r / 0x1000 % 0x40 ≤ 0x8F
            else 0x80 ≤ 0x80 + r / 0x1000 % 0x40 ∧ 0x80 + r / 0x1000 % 0x40 ≤ 0xBF) := by
          split_ifs <;> constructor <;> omega
        have c7 : 0x80 ≤ 0x80 + r / 0x40 % 0x40 ∧ 0x80 + r / 0x40 % 0x40 ≤ 0xBF := by
          constructor <;> omega
        have c8 : 0x80 ≤ 0x80 + r % 0x40 ∧ 0x80 + r % 0x40 ≤ 0xBF := by
          constructor <;> omega
        have e1 : (0xF0 + r / 0x40000) % 0x8 = r / 0x40000 := by omega
        have e2 : (0x80 + r / 0x1000 % 0x40) % 0x40 = r / 0x1000 % 0x40 := by omega
        have e3 : (0x80 + r / 0x40 % 0x40) % 0x40 = r / 0x40 % 0x40 := by omega
        have e4 : (0x80 + r % 0x40) % 0x40 = r % 0x40 := by omega
        simp only [List.cons_append, List.nil_append, decodeRune, if_neg c1,
          if_neg c2, if_neg c3, if_neg c4, if_pos c5, if_pos c6, if_pos c7,
          if_pos c8, List.length_cons, List.length_nil, Prod.mk.injEq, e1, e2, e3, e4]
        exact ⟨by omega, trivial⟩

/-- For a valid rune, utf8.RuneLen agrees with the length of its
encoding. -/
theorem encodeRune_length_valid (r : Nat) (hv : validRune r = true) :
    ((encodeRune r).length : Int) = utf8RuneLen r := by
  have hvr : r < 0xD800 ∨ (0xDFFF < r ∧ r ≤ 0x10FFFF) := by
    simp only [validRune, Bool.or_eq_true, Bool.and_eq_true, decide_eq_true_eq] at hv
    exact hv
  unfold encodeRune utf8RuneLen
  by_cases h1 : r ≤ 0x7F
  · rw [if_pos h1, if_pos h1]
    rfl
  · rw [if_neg h1, if_neg h1]
    by_cases h2 : r ≤ 0x7FF
    · rw [if_pos h2, if_pos h2]
      rfl
    · rw [if_neg h2, if_neg h2]
      have hval : ¬ ¬ validRune r = true := fun hc => hc hv
      rw [if_neg hval, if_neg (show ¬ (0xD800 ≤ r ∧ r ≤ 0xDFFF) by omega)]
      by_cases h3 : r ≤ 0xFFFF
      · rw [if_pos h3, if_pos h3]
        rfl
      · rw [if_neg h3, if_neg h3, if_pos (show r ≤ 0x10FFFF by omega)]
        rfl

/-- Decoding the encoding of a list of valid runes recovers the runes, with
byte positions equal to the running sums of the encoded lengths (i.e. the
NewGraphemesFromRunes index array). -/
theorem decodeString_encode (rs : List Nat) : ∀ pos : Nat,
    (∀ r ∈ rs, validRune r = true) →
    (decodeString (utf8Encode rs) pos).map (fun pr => pr.2) = rs ∧
    (decodeString (utf8Encode rs) pos).map (fun pr => (pr.1 : Int)) ++
      [((pos + (utf8Encode rs).length : Nat) : Int)] =
      fromRunesIndices rs (pos : Int) := by
  induction rs with
  | nil =>
    intro pos hv
    constructor
    · simp [decodeString, utf8Encode]
    · simp [decodeString, utf8Encode, fromRunesIndices]
  | cons r rs' ih =>
    intro pos hv
    have hvr : validRune r = true := hv r (by simp)
    have hvr' : ∀ x ∈ rs', validRune x = true := fun x hx => hv x (by simp [hx])
    have henc : utf8Encode (r :: rs') = encodeRune r ++ utf8Encode rs' := by
      simp [utf8Encode]
    have hne : encodeRune r ++ utf8Encode rs' ≠ [] := by
      intro h0
      exact encodeRune_ne_nil r (List.append_eq_nil.mp h0).1
    have hdec := decode_encodeRune r (utf8Encode rs') hvr
    have hdrop : (encodeRune r ++ utf8Encode rs').drop (encodeRune r).length =
        utf8Encode rs' := List.drop_left _ _
    rw [henc, decodeString, dif_neg hne]
    simp only [hdec]
    rw [hdrop]
    obtain ⟨ih1, ih2⟩ := ih (pos + (encodeRune r).length) hvr'
    constructor
    · simp only [List.map_cons]
      rw [ih1]
    · simp only [List.map_cons, List.cons_append]
      rw [fromRunesIndices]
      have hlen := encodeRune_length_valid r hvr
      have htot : pos + (encodeRune r ++ utf8Encode rs').length =
          pos + (encodeRune r).length + (utf8Encode rs').length := by
        simp only [List.length_append]
        omega
      rw [htot]
      congr 1
      rw [← hlen]
      have hcast : ((pos : Int) + ((encodeRune r).length : Int)) =
          (((pos + (encodeRune r).length : Nat)) : Int) := by
        push_cast
        ring
      rw [hcast]
      exact ih2

/-- C10: for a slice of valid Unicode scalar values, the iterator built by
NewGraphemesFromRunes and the iterator built by NewGraphemes over the UTF-8
encoding of the runes are equal as states — hence observationally
identical: every Next call and every accessor (Runes, Str, Bytes,
Positions) agree at every step, as witnessed on the full drains. -/
theorem c10_from_runes_equiv (rs : List Nat)
    (hv : ∀ r ∈ rs, validRune r = true) :
    newGraphemesFromRunes rs = newGraphemes (utf8Encode rs) ∧
    drainG (newGraphemesFromRunes rs) = drainG (newGraphemes (utf8Encode rs)) ∧
    (drainG (newGraphemesFromRunes rs)).1.map Graphemes.runes =
      (drainG (newGraphemes (utf8Encode rs))).1.map Graphemes.runes ∧
    (drainG (newGraphemesFromRunes rs)).1.map Graphemes.str =
      (drainG (newGraphemes (utf8Encode rs))).1.map Graphemes.str ∧
    (drainG (newGraphemesFromRunes rs)).1.map Graphemes.bytes =
      (drainG (newGraphemes (utf8Encode rs))).1.map Graphemes.bytes ∧
    (drainG (newGraphemesFromRunes rs)).1.map Graphemes.positions =
      (drainG (newGraphemes (utf8Encode rs))).1.map Graphemes.positions := by
  obtain ⟨hcp, hidx0⟩ := decodeString_encode rs 0 hv
  have hidx : (decodeString (utf8Encode rs) 0).map (fun pr => (pr.1 : Int)) ++
      [((utf8Encode rs).length : Int)] = fromRunesIndices rs 0 := by
    have h2 := hidx0
    simp only [Nat.zero_add, Nat.cast_zero] at h2
    exact h2
  have hstruct : newGraphemesFromRunes rs = newGraphemes (utf8Encode rs) := by
    unfold newGraphemesFromRunes newGraphemes
    simp only []
    rw [hcp, hidx]
  refine ⟨hstruct, ?_, ?_, ?_, ?_, ?_⟩ <;> rw [hstruct]

/-- Witness for C10 at the concrete runes "a" and a regional indicator. -/
theorem c10_from_runes_equiv_witness :
    newGraphemesFromRunes [0x61, 0x1F1E6] =
      newGraphemes (utf8Encode [0x61, 0x1F1E6]) :=
  (c10_from_runes_equiv [0x61, 0x1F1E6] (by decide)).1
